import Mathlib

/-!
# Verification of the Airtable change-detector engine

Shallow embedding of `ChangeDetector.js` / `RecordError.js`.

Modelling conventions:
* JS values stored in record fields are modelled by the inductive `Json`
  (string, number, boolean, null, array, object).  Numbers are modelled as
  integers; timestamps (the "Last Modified" / "Last Processed" fields) are
  modelled as integer milliseconds since the Unix epoch (`Json.num t`
  standing for the ISO-8601 string the store returns).
* JS objects are modelled as association lists `List (String × Json)`;
  `delete o[k]` and `o[k] = v` become `deleteF` / `setF`.  lodash's
  `_.isEqual` on the two field mappings is key-order insensitive, which
  `eqF` reproduces at the top level; nested values are kept in canonical
  form so structural equality models deep equality below the top level.
* `JSON.stringify` / `JSON.parse` are modelled by the executable
  `printJson` / `parseJson` below, with a proved round-trip theorem.
* Promise rejection is modelled by `Except`; the remote table is an
  explicit `List Rec` threaded through `pollOnce`.
-/

/-- JSON/JS values as stored in Airtable record fields. -/
inductive Json where
  | null : Json
  | bool (b : Bool) : Json
  | num (n : Int) : Json
  | str (s : String) : Json
  | arr (xs : List Json) : Json
  | obj (kvs : List (String × Json)) : Json
deriving Repr

mutual

/-- Structural equality of JSON values (models deep equality on canonical values). -/
def beqJson : Json → Json → Bool
  | .null, .null => true
  | .bool a, .bool b => a == b
  | .num a, .num b => a == b
  | .str a, .str b => a == b
  | .arr xs, .arr ys => beqJsonList xs ys
  | .obj xs, .obj ys => beqJsonKVs xs ys
  | _, _ => false

def beqJsonList : List Json → List Json → Bool
  | [], [] => true
  | x :: xs, y :: ys => beqJson x y && beqJsonList xs ys
  | _, _ => false

def beqJsonKVs : List (String × Json) → List (String × Json) → Bool
  | [], [] => true
  | (ka, va) :: ra, (kb, vb) :: rb => ka == kb && beqJson va vb && beqJsonKVs ra rb
  | _, _ => false

end

/-- Nested induction principle for `Json`. -/
theorem Json.my_ind {P : Json → Prop}
    (hnull : P .null) (hbool : ∀ b, P (.bool b)) (hnum : ∀ n, P (.num n))
    (hstr : ∀ s, P (.str s))
    (harr : ∀ xs, (∀ x ∈ xs, P x) → P (.arr xs))
    (hobj : ∀ kvs, (∀ kv ∈ kvs, P kv.2) → P (.obj kvs)) :
    ∀ j, P j := by
  have key : ∀ n : Nat, ∀ j : Json, sizeOf j ≤ n → P j := by
    intro n
    induction n with
    | zero => intro j h; cases j <;> simp at h
    | succ n ih =>
      intro j h
      cases j with
      | null => exact hnull
      | bool b => exact hbool b
      | num m => exact hnum m
      | str s => exact hstr s
      | arr xs =>
        refine harr xs (fun x hx => ih x ?_)
        have hlt := List.sizeOf_lt_of_mem hx
        simp only [Json.arr.sizeOf_spec] at h
        omega
      | obj kvs =>
        refine hobj kvs (fun kv hkv => ih kv.2 ?_)
        have hlt := List.sizeOf_lt_of_mem hkv
        have h2 : sizeOf kv.2 < sizeOf kv := by
          obtain ⟨k, v⟩ := kv
          simp only [Prod.mk.sizeOf_spec]
          omega
        simp only [Json.obj.sizeOf_spec] at h
        omega
  exact fun j => key (sizeOf j) j le_rfl

theorem beqJsonList_iff :
    ∀ l : List Json, (∀ x ∈ l, ∀ b, beqJson x b = true ↔ x = b) →
    ∀ ys, beqJsonList l ys = true ↔ l = ys := by
  intro l
  induction l with
  | nil => intro _ ys; cases ys <;> simp [beqJsonList]
  | cons x xs ih =>
    intro hl ys
    cases ys with
    | nil => simp [beqJsonList]
    | cons y ys =>
      simp only [beqJsonList, Bool.and_eq_true]
      rw [hl x (by simp) y, ih (fun z hz b => hl z (by simp [hz]) b) ys]
      simp

theorem beqJsonKVs_iff :
    ∀ l : List (String × Json), (∀ kv ∈ l, ∀ b, beqJson kv.2 b = true ↔ kv.2 = b) →
    ∀ ys, beqJsonKVs l ys = true ↔ l = ys := by
  intro l
  induction l with
  | nil => intro _ ys; cases ys <;> simp [beqJsonKVs]
  | cons kv kvs ih =>
    intro hl ys
    obtain ⟨k, v⟩ := kv
    cases ys with
    | nil => simp [beqJsonKVs]
    | cons y ys =>
      obtain ⟨k', v'⟩ := y
      simp only [beqJsonKVs, Bool.and_eq_true]
      rw [hl (k, v) (by simp) v', ih (fun z hz b => hl z (by simp [hz]) b) ys]
      simp [and_assoc]

theorem beqJson_iff : ∀ a b : Json, beqJson a b = true ↔ a = b := by
  intro a
  induction a using Json.my_ind with
  | hnull => intro b; cases b <;> simp [beqJson]
  | hbool x => intro b; cases b <;> simp [beqJson]
  | hnum x => intro b; cases b <;> simp [beqJson]
  | hstr x => intro b; cases b <;> simp [beqJson]
  | harr xs ihx => intro b; cases b <;> simp [beqJson, beqJsonList_iff xs ihx]
  | hobj kvs ihkv => intro b; cases b <;> simp [beqJson, beqJsonKVs_iff kvs ihkv]

instance : DecidableEq Json := fun a b => decidable_of_iff _ (beqJson_iff a b)

/-! ## JS object operations

A JS object (in particular a record's field mapping) is an association
list; `lookupF` is property access, `deleteF` is `delete o[k]`, `setF` is
`o[k] = v` (overwrite in place if the key exists, append otherwise). -/

/-- A record's field mapping (`record.fields`). -/
abbrev Fields := List (String × Json)

/-- Property read: `o[k]`, `undefined` modelled as `none`. -/
def lookupF (fs : Fields) (k : String) : Option Json :=
  match fs with
  | [] => none
  | (k', v) :: rest => if k' = k then some v else lookupF rest k

/-- `delete o[k]`. -/
def deleteF (fs : Fields) (k : String) : Fields :=
  fs.filter (fun p => p.1 ≠ k)

/-- `o[k] = v`: overwrite keeping the key's position, else append. -/
def setF (fs : Fields) (k : String) (v : Json) : Fields :=
  if (lookupF fs k).isSome then
    fs.map (fun p => if p.1 = k then (k, v) else p)
  else fs ++ [(k, v)]

/-- Delete a list of keys (`ignoredFields.forEach(f => delete o[f])`). -/
def deleteAll (fs : Fields) (ks : List String) : Fields :=
  ks.foldl deleteF fs

/-- `_.keys(o)`. -/
def keysF (fs : Fields) : List String := fs.map Prod.fst

/-- lodash `_.isEqual` on two JS objects: key-order-insensitive comparison
of the two mappings (values held in canonical form). -/
def eqF (a b : Fields) : Bool :=
  (keysF a ++ keysF b).all (fun k => lookupF a k = lookupF b k)

/-- JS truthiness of a possibly-`undefined` value
(`undefined`, `null`, `false`, `0`, `""` are falsy). -/
def truthy : Option Json → Bool
  | none => false
  | some .null => false
  | some (.bool b) => b
  | some (.num n) => n ≠ 0
  | some (.str s) => s ≠ ""
  | some (.arr _) => true
  | some (.obj _) => true

/-! ## `JSON.stringify` (printer) -/

/-- The decimal digit characters. -/
def digitChar (n : Nat) : Char :=
  match n with
  | 0 => '0' | 1 => '1' | 2 => '2' | 3 => '3' | 4 => '4'
  | 5 => '5' | 6 => '6' | 7 => '7' | 8 => '8' | _ => '9'

/-- Decimal digits, fuel-indexed so that the kernel can evaluate it
(`fuel` bounds the number of digits; `natChars` supplies enough). -/
def natCharsAux : Nat → Nat → List Char
  | 0, _ => []
  | fuel + 1, n =>
    if n < 10 then [digitChar n]
    else natCharsAux fuel (n / 10) ++ [digitChar (n % 10)]

/-- Decimal digits of a natural number, most significant first. -/
def natChars (n : Nat) : List Char := natCharsAux (n + 1) n

/-- Decimal notation of an integer (as `JSON.stringify` prints it). -/
def intChars (n : Int) : List Char :=
  if n < 0 then '-' :: natChars n.natAbs else natChars n.natAbs

/-- JSON string escaping of one character (`"` and `\` get a backslash). -/
def escChar (c : Char) : List Char :=
  if c = '"' ∨ c = '\\' then ['\\', c] else [c]

/-- JSON string escaping. -/
def escapeChars (s : List Char) : List Char :=
  s.foldr (fun c acc => escChar c ++ acc) []

mutual

/-- `JSON.stringify`, producing characters (no whitespace, like JS). -/
def printChars : Json → List Char
  | .null => 'n' :: ['u', 'l', 'l']
  | .bool true => 't' :: ['r', 'u', 'e']
  | .bool false => 'f' :: ['a', 'l', 's', 'e']
  | .num n => intChars n
  | .str s => '"' :: (escapeChars s.data ++ ['"'])
  | .arr xs => '[' :: (printElems xs ++ [']'])
  | .obj kvs => '{' :: (printMembers kvs ++ ['}'])

def printElems : List Json → List Char
  | [] => []
  | [x] => printChars x
  | x :: xs => printChars x ++ ',' :: printElems xs

def printMembers : List (String × Json) → List Char
  | [] => []
  | [(k, v)] => '"' :: (escapeChars k.data ++ '"' :: ':' :: printChars v)
  | (k, v) :: kvs =>
      '"' :: (escapeChars k.data ++ '"' :: ':' :: printChars v) ++ ',' :: printMembers kvs

end

/-- `JSON.stringify` as a string-producing function. -/
def printJson (j : Json) : String := ⟨printChars j⟩

example : printJson (.obj [("a", .num 1), ("b", .arr [.null, .str "x"])])
    = "\x7b\"a\":1,\"b\":[null,\"x\"]\x7d" := by decide

/-! ## `JSON.parse` (recursive-descent parser)

Fuel-indexed so that it is a total, kernel-evaluable function; `parseJson`
supplies fuel that is proven sufficient for every printed value
(`parseJson_printJson` below), and any string the grammar rejects yields
`none`, modelling a `SyntaxError` from `JSON.parse`. -/

/-- Numeric value of a decimal digit character. -/
def digitVal (c : Char) : Nat := c.toNat - 48

/-- Parse a maximal nonempty run of decimal digits. -/
def parseNat (cs : List Char) : Option (Nat × List Char) :=
  let ds := cs.takeWhile Char.isDigit
  if ds.isEmpty then none
  else some (ds.foldl (fun a c => a * 10 + digitVal c) 0, cs.dropWhile Char.isDigit)

/-- Parse the body of a string literal after the opening quote, undoing
`escapeChars`; returns the content and the input after the closing quote. -/
def parseStrChars : List Char → Option (List Char × List Char)
  | [] => none
  | c :: rest =>
    if c = '"' then some ([], rest)
    else if c = '\\' then
      match rest with
      | [] => none
      | c2 :: rest2 =>
        if c2 = '"' ∨ c2 = '\\' then
          match parseStrChars rest2 with
          | some (l, r) => some (c2 :: l, r)
          | none => none
        else none
    else
      match parseStrChars rest with
      | some (l, r) => some (c :: l, r)
      | none => none

/-- Match an expected literal character sequence. -/
def expectChars : List Char → List Char → Option (List Char)
  | [], cs => some cs
  | p :: ps, c :: cs => if c = p then expectChars ps cs else none
  | _ :: _, [] => none

mutual

/-- Parse one JSON value. -/
def parseVal : Nat → List Char → Option (Json × List Char)
  | 0, _ => none
  | fuel + 1, cs =>
    match cs with
    | [] => none
    | c :: rest =>
      if c = 'n' then
        match expectChars ['u', 'l', 'l'] rest with
        | some r => some (.null, r)
        | none => none
      else if c = 't' then
        match expectChars ['r', 'u', 'e'] rest with
        | some r => some (.bool true, r)
        | none => none
      else if c = 'f' then
        match expectChars ['a', 'l', 's', 'e'] rest with
        | some r => some (.bool false, r)
        | none => none
      else if c = '"' then
        match parseStrChars rest with
        | some (l, r) => some (.str ⟨l⟩, r)
        | none => none
      else if c = '[' then
        if rest.head? = some ']' then some (.arr [], rest.tail)
        else
          match parseElems fuel rest with
          | some (xs, r) => some (.arr xs, r)
          | none => none
      else if c = '{' then
        if rest.head? = some '}' then some (.obj [], rest.tail)
        else
          match parseMembers fuel rest with
          | some (kvs, r) => some (.obj kvs, r)
          | none => none
      else if c = '-' then
        match parseNat rest with
        | some (n, r) => some (.num (-(n : Int)), r)
        | none => none
      else if c.isDigit then
        match parseNat (c :: rest) with
        | some (n, r) => some (.num (n : Int), r)
        | none => none
      else none

/-- Parse one-or-more comma-separated array elements and the closing bracket. -/
def parseElems : Nat → List Char → Option (List Json × List Char)
  | 0, _ => none
  | fuel + 1, cs =>
    match parseVal fuel cs with
    | none => none
    | some (x, r) =>
      match r with
      | ',' :: r2 =>
        match parseElems fuel r2 with
        | some (xs, r3) => some (x :: xs, r3)
        | none => none
      | ']' :: r2 => some ([x], r2)
      | _ => none

/-- Parse one-or-more `"key":value` members and the closing brace. -/
def parseMembers : Nat → List Char → Option (List (String × Json) × List Char)
  | 0, _ => none
  | fuel + 1, cs =>
    match cs with
    | '"' :: rest =>
      match parseStrChars rest with
      | none => none
      | some (kl, r) =>
        match r with
        | ':' :: r2 =>
          match parseVal fuel r2 with
          | none => none
          | some (v, r3) =>
            match r3 with
            | ',' :: r4 =>
              match parseMembers fuel r4 with
              | some (kvs, r5) => some ((⟨kl⟩, v) :: kvs, r5)
              | none => none
            | '}' :: r4 => some ([(⟨kl⟩, v)], r4)
            | _ => none
        | _ => none
    | _ => none

end

/-- `JSON.parse`: `none` models a thrown `SyntaxError`.  The fuel
`2 * length + 2` is sufficient for every string `JSON.stringify` produces
(theorem `parseJson_printJson`). -/
def parseJson (s : String) : Option Json :=
  match parseVal (2 * s.data.length + 2) s.data with
  | some (j, []) => some j
  | _ => none

example : parseJson "\x7b\"a\":1,\"b\":[null,\"x\"]\x7d"
    = some (.obj [("a", .num 1), ("b", .arr [.null, .str "x"])]) := by decide

example : parseJson "not json" = none := by decide

example : parseJson "\x7b\"lastValues\":" = none := by decide

example : parseJson "-12" = some (.num (-12)) := by decide

example : parseJson (printJson (.str "a\"b\\c")) = some (.str "a\"b\\c") := by decide

/-! ## Printer/parser round trip -/

/-- The continuation after a printed number must not begin with a digit. -/
def headNotDigit : List Char → Prop
  | [] => True
  | c :: _ => c.isDigit = false

theorem digitChar_isDigit (m : Nat) : (digitChar m).isDigit = true := by
  unfold digitChar
  split <;> decide

theorem digitVal_digitChar (m : Nat) (h : m < 10) : digitVal (digitChar m) = m := by
  unfold digitChar
  split <;> simp_all [digitVal] <;> omega

theorem natCharsAux_adequate :
    ∀ n fuel, n < fuel → natCharsAux fuel n = natChars n := by
  intro n
  induction n using Nat.strong_induction_on with
  | _ n ih =>
    intro fuel hfuel
    match fuel with
    | f + 1 =>
      by_cases h10 : n < 10
      · simp [natCharsAux, natChars, h10]
      · have hdiv : n / 10 < n := Nat.div_lt_self (by omega) (by omega)
        have h1 : natCharsAux (f + 1) n = natCharsAux f (n / 10) ++ [digitChar (n % 10)] := by
          simp [natCharsAux, h10]
        have h2 : natChars n = natCharsAux n (n / 10) ++ [digitChar (n % 10)] := by
          simp [natChars, natCharsAux, h10]
        rw [h1, h2, ih (n / 10) hdiv f (by omega), ih (n / 10) hdiv n (by omega)]

/-- Unfolding equation for `natChars`. -/
theorem natChars_eq (n : Nat) :
    natChars n = if n < 10 then [digitChar n]
                 else natChars (n / 10) ++ [digitChar (n % 10)] := by
  by_cases h10 : n < 10
  · simp [natChars, natCharsAux, h10]
  · have h1 : natChars n = natCharsAux n (n / 10) ++ [digitChar (n % 10)] := by
      simp [natChars, natCharsAux, h10]
    rw [if_neg h10, h1, natCharsAux_adequate (n / 10) n (by omega)]

theorem natChars_ne_nil (n : Nat) : natChars n ≠ [] := by
  rw [natChars_eq]
  split <;> simp

theorem natChars_digits (n : Nat) : ∀ c ∈ natChars n, c.isDigit = true := by
  induction n using Nat.strong_induction_on with
  | _ n ih =>
    rw [natChars_eq]
    split
    · simp [digitChar_isDigit]
    · intro c hc
      rw [List.mem_append] at hc
      rcases hc with hc | hc
      · exact ih (n / 10) (Nat.div_lt_self (by omega) (by omega)) c hc
      · simp at hc
        simp [hc, digitChar_isDigit]

theorem natChars_foldl (n : Nat) :
    ∀ a, (natChars n).foldl (fun x c => x * 10 + digitVal c) a
      = a * 10 ^ (natChars n).length + n := by
  induction n using Nat.strong_induction_on with
  | _ n ih =>
    intro a
    rw [natChars_eq]
    split
    · next h10 => simp [digitVal_digitChar n h10]
    · next h10 =>
      have hdiv : n / 10 < n := Nat.div_lt_self (by omega) (by omega)
      rw [List.foldl_append, ih (n / 10) hdiv a]
      simp only [List.foldl, List.length_append, List.length_cons, List.length_nil]
      rw [digitVal_digitChar (n % 10) (by omega)]
      have : 10 ^ ((natChars (n / 10)).length + 1)
          = 10 ^ (natChars (n / 10)).length * 10 := by
        rw [pow_succ]
      rw [this]
      have hmod : n / 10 * 10 + n % 10 = n := by omega
      ring_nf
      omega

theorem takeWhile_digits (l rest : List Char)
    (hl : ∀ c ∈ l, Char.isDigit c = true) (hr : headNotDigit rest) :
    (l ++ rest).takeWhile Char.isDigit = l
      ∧ (l ++ rest).dropWhile Char.isDigit = rest := by
  induction l with
  | nil =>
    match rest with
    | [] => simp
    | c :: rest' =>
      simp only [headNotDigit] at hr
      simp [List.takeWhile_cons, List.dropWhile_cons, hr]
  | cons c l ih =>
    have hc := hl c (by simp)
    have ihh := ih (fun x hx => hl x (by simp [hx]))
    simp [List.takeWhile_cons, List.dropWhile_cons, hc, ihh.1, ihh.2]

theorem parseNat_natChars (n : Nat) (rest : List Char) (hr : headNotDigit rest) :
    parseNat (natChars n ++ rest) = some (n, rest) := by
  have htw := takeWhile_digits (natChars n) rest (natChars_digits n) hr
  simp only [parseNat, htw.1, htw.2]
  have hne := natChars_ne_nil n
  rw [if_neg (by simpa using hne)]
  rw [natChars_foldl n 0]
  simp

theorem parseStrChars_escape (l : List Char) :
    ∀ rest, parseStrChars (escapeChars l ++ '"' :: rest) = some (l, rest) := by
  induction l with
  | nil =>
    intro rest
    show parseStrChars ('"' :: rest) = some ([], rest)
    rw [parseStrChars.eq_def]
    rfl
  | cons c l ih =>
    intro rest
    have hesc : escapeChars (c :: l) = escChar c ++ escapeChars l := by
      simp [escapeChars]
    rw [hesc]
    by_cases hc : c = '"' ∨ c = '\\'
    · have heq : escChar c ++ escapeChars l ++ '"' :: rest
          = '\\' :: c :: (escapeChars l ++ '"' :: rest) := by
        simp [escChar, hc]
      rw [heq, parseStrChars.eq_def]
      show (if c = '"' ∨ c = '\\' then
              match parseStrChars (escapeChars l ++ '"' :: rest) with
              | some (l, r) => some (c :: l, r)
              | none => none
            else none) = _
      rw [if_pos hc, ih rest]
    · have heq : escChar c ++ escapeChars l ++ '"' :: rest
          = c :: (escapeChars l ++ '"' :: rest) := by
        simp [escChar, hc]
      rw [heq, parseStrChars.eq_def]
      push_neg at hc
      show (if c = '"' then some ([], escapeChars l ++ '"' :: rest)
            else if c = '\\' then _
            else match parseStrChars (escapeChars l ++ '"' :: rest) with
              | some (l, r) => some (c :: l, r)
              | none => none) = _
      rw [if_neg hc.1, if_neg hc.2, ih rest]

mutual

/-- Fuel sufficient for `parseVal` to parse a printed value. -/
def needJ : Json → Nat
  | .null => 1
  | .bool _ => 1
  | .num _ => 1
  | .str _ => 1
  | .arr xs => 1 + needE xs
  | .obj kvs => 1 + needM kvs

def needE : List Json → Nat
  | [] => 0
  | x :: xs => 1 + needJ x + needE xs

def needM : List (String × Json) → Nat
  | [] => 0
  | kv :: kvs => 1 + needJ kv.2 + needM kvs

end

theorem digit_not_special (c : Char) (h : c.isDigit = true) :
    c ≠ 'n' ∧ c ≠ 't' ∧ c ≠ 'f' ∧ c ≠ '"' ∧ c ≠ '[' ∧ c ≠ '\x7b'
      ∧ c ≠ '-' ∧ c ≠ ']' ∧ c ≠ '\x7d' := by
  refine ⟨?_, ?_, ?_, ?_, ?_, ?_, ?_, ?_, ?_⟩ <;>
    exact fun hEq => absurd h (by rw [hEq]; decide)

theorem headNotDigit_of (c : Char) (l : List Char) (h : c.isDigit = false) :
    headNotDigit (c :: l) := h

theorem headNotDigit_nil : headNotDigit [] := trivial

/-- Every printed value begins with a character that is not a closing
bracket (used to rule out the empty-array/empty-object fast paths). -/
theorem printChars_head (j : Json) :
    ∃ c cs, printChars j = c :: cs ∧ c ≠ ']' ∧ c ≠ '\x7d' := by
  cases j with
  | null => exact ⟨'n', _, rfl, by decide, by decide⟩
  | bool b =>
    cases b with
    | false => exact ⟨'f', _, rfl, by decide, by decide⟩
    | true => exact ⟨'t', _, rfl, by decide, by decide⟩
  | num n =>
    show ∃ c cs, intChars n = c :: cs ∧ _
    unfold intChars
    by_cases hn : n < 0
    · rw [if_pos hn]; exact ⟨'-', _, rfl, by decide, by decide⟩
    · rw [if_neg hn]
      match h : natChars n.natAbs with
      | [] => exact absurd h (natChars_ne_nil _)
      | c :: cs =>
        have hd := natChars_digits n.natAbs c (by rw [h]; simp)
        have := digit_not_special c hd
        exact ⟨c, cs, rfl, this.2.2.2.2.2.2.2.1, this.2.2.2.2.2.2.2.2⟩
  | str s => exact ⟨'"', _, rfl, by decide, by decide⟩
  | arr xs => exact ⟨'[', _, rfl, by decide, by decide⟩
  | obj kvs => exact ⟨'\x7b', _, rfl, by decide, by decide⟩

theorem printElems_shape (x : Json) (xs : List Json) :
    ∃ t, printElems (x :: xs) = printChars x ++ t := by
  cases xs with
  | nil => exact ⟨[], by simp [printElems]⟩
  | cons y ys => exact ⟨',' :: printElems (y :: ys), rfl⟩

theorem parseElems_print (l : List Json)
    (ihm : ∀ x ∈ l, ∀ fuel rest, needJ x ≤ fuel → headNotDigit rest →
      parseVal fuel (printChars x ++ rest) = some (x, rest)) :
    ∀ fuel rest, l ≠ [] → needE l ≤ fuel →
      parseElems fuel (printElems l ++ ']' :: rest) = some (l, rest) := by
  induction l with
  | nil => intro fuel rest hne _; exact absurd rfl hne
  | cons x xs ih =>
    intro fuel rest _ hfuel
    match fuel with
    | 0 => exact absurd hfuel (by simp [needE])
    | f + 1 =>
      have hfx : needJ x ≤ f := by simp [needE] at hfuel; omega
      cases xs with
      | nil =>
        have hval : parseVal f (printChars x ++ ']' :: rest) = some (x, ']' :: rest) :=
          ihm x (by simp) f (']' :: rest) hfx (headNotDigit_of _ _ (by decide))
        rw [show printElems [x] ++ ']' :: rest = printChars x ++ ']' :: rest from by
          simp [printElems]]
        rw [parseElems.eq_def]
        simp only [hval]
      | cons y ys =>
        have hlist : printElems (x :: y :: ys) ++ ']' :: rest
            = printChars x ++ (',' :: (printElems (y :: ys) ++ ']' :: rest)) := by
          show printChars x ++ ',' :: printElems (y :: ys) ++ ']' :: rest = _
          simp
        have hval : parseVal f (printChars x ++ (',' :: (printElems (y :: ys) ++ ']' :: rest)))
            = some (x, ',' :: (printElems (y :: ys) ++ ']' :: rest)) :=
          ihm x (by simp) f _ hfx (headNotDigit_of _ _ (by decide))
        have hrec : parseElems f (printElems (y :: ys) ++ ']' :: rest) = some (y :: ys, rest) :=
          ih (fun z hz => ihm z (by simp [hz])) f rest (by simp) (by simp [needE] at hfuel ⊢; omega)
        rw [hlist, parseElems.eq_def]
        simp only [hval, hrec]

theorem parseMembers_print (l : List (String × Json))
    (ihm : ∀ kv ∈ l, ∀ fuel rest, needJ kv.2 ≤ fuel → headNotDigit rest →
      parseVal fuel (printChars kv.2 ++ rest) = some (kv.2, rest)) :
    ∀ fuel rest, l ≠ [] → needM l ≤ fuel →
      parseMembers fuel (printMembers l ++ '\x7d' :: rest) = some (l, rest) := by
  induction l with
  | nil => intro fuel rest hne _; exact absurd rfl hne
  | cons kv kvs ih =>
    obtain ⟨k, v⟩ := kv
    intro fuel rest _ hfuel
    match fuel with
    | 0 => exact absurd hfuel (by simp [needM])
    | f + 1 =>
      have hfv : needJ v ≤ f := by simp [needM] at hfuel; omega
      cases kvs with
      | nil =>
        have hlist : printMembers [(k, v)] ++ '\x7d' :: rest
            = '"' :: (escapeChars k.data ++ '"' :: (':' :: (printChars v ++ '\x7d' :: rest))) := by
          show '"' :: (escapeChars k.data ++ '"' :: ':' :: printChars v) ++ '\x7d' :: rest = _
          simp
        have hstr : parseStrChars (escapeChars k.data ++ '"' :: (':' :: (printChars v ++ '\x7d' :: rest)))
            = some (k.data, ':' :: (printChars v ++ '\x7d' :: rest)) :=
          parseStrChars_escape k.data _
        have hval : parseVal f (printChars v ++ '\x7d' :: rest) = some (v, '\x7d' :: rest) :=
          ihm (k, v) (by simp) f _ hfv (headNotDigit_of _ _ (by decide))
        rw [hlist, parseMembers.eq_def]
        simp only [hstr, hval]
      | cons kv2 kvs2 =>
        have hlist : printMembers ((k, v) :: kv2 :: kvs2) ++ '\x7d' :: rest
            = '"' :: (escapeChars k.data ++ '"' :: (':' :: (printChars v
                ++ ',' :: (printMembers (kv2 :: kvs2) ++ '\x7d' :: rest)))) := by
          show '"' :: (escapeChars k.data ++ '"' :: ':' :: printChars v)
              ++ ',' :: printMembers (kv2 :: kvs2) ++ '\x7d' :: rest = _
          simp
        have hstr : parseStrChars (escapeChars k.data
              ++ '"' :: (':' :: (printChars v ++ ',' :: (printMembers (kv2 :: kvs2) ++ '\x7d' :: rest))))
            = some (k.data, ':' :: (printChars v ++ ',' :: (printMembers (kv2 :: kvs2) ++ '\x7d' :: rest))) :=
          parseStrChars_escape k.data _
        have hval : parseVal f (printChars v ++ ',' :: (printMembers (kv2 :: kvs2) ++ '\x7d' :: rest))
            = some (v, ',' :: (printMembers (kv2 :: kvs2) ++ '\x7d' :: rest)) :=
          ihm (k, v) (by simp) f _ hfv (headNotDigit_of _ _ (by decide))
        have hrec : parseMembers f (printMembers (kv2 :: kvs2) ++ '\x7d' :: rest)
            = some (kv2 :: kvs2, rest) :=
          ih (fun z hz => ihm z (by simp [hz])) f rest (by simp) (by simp [needM] at hfuel ⊢; omega)
        rw [hlist, parseMembers.eq_def]
        simp only [hstr, hval, hrec]

/-- Round trip: the parser recovers every printed value, given enough fuel
and a continuation that does not begin with a digit. -/
theorem parseVal_print :
    ∀ (j : Json) (fuel : Nat) (rest : List Char), needJ j ≤ fuel → headNotDigit rest →
      parseVal fuel (printChars j ++ rest) = some (j, rest) := by
  intro j
  induction j using Json.my_ind with
  | hnull =>
    intro fuel rest hf _
    match fuel with
    | 0 => exact absurd hf (by decide)
    | f + 1 => rfl
  | hbool b =>
    intro fuel rest hf _
    match fuel with
    | 0 => exact absurd hf (by cases b <;> decide)
    | f + 1 => cases b <;> rfl
  | hnum n =>
    intro fuel rest hf hrest
    match fuel with
    | 0 => exact absurd hf (by simp [needJ])
    | f + 1 =>
      by_cases hneg : n < 0
      · have hprint : printChars (.num n) ++ rest = '-' :: (natChars n.natAbs ++ rest) := by
          show intChars n ++ rest = _
          rw [intChars, if_pos hneg]
          simp
        rw [hprint]
        show (match parseNat (natChars n.natAbs ++ rest) with
              | some (m, r) => some (Json.num (-(m : Int)), r)
              | none => none) = _
        rw [parseNat_natChars _ rest hrest]
        simp only [Option.some.injEq, Prod.mk.injEq, Json.num.injEq]
        exact ⟨by omega, trivial⟩
      · match hnat : natChars n.natAbs with
        | [] => exact absurd hnat (natChars_ne_nil _)
        | c :: cs =>
          have hd : c.isDigit = true := natChars_digits n.natAbs c (by rw [hnat]; simp)
          have hsp := digit_not_special c hd
          have hprint : printChars (.num n) ++ rest = c :: (cs ++ rest) := by
            show intChars n ++ rest = _
            rw [intChars, if_neg hneg, hnat]
            simp
          have hpn : parseNat (c :: (cs ++ rest)) = some (n.natAbs, rest) := by
            rw [show c :: (cs ++ rest) = (c :: cs) ++ rest from rfl, ← hnat]
            exact parseNat_natChars _ rest hrest
          rw [hprint, parseVal.eq_def]
          simp only [hsp.1, hsp.2.1, hsp.2.2.1, hsp.2.2.2.1, hsp.2.2.2.2.1,
            hsp.2.2.2.2.2.1, hsp.2.2.2.2.2.2.1, hd, if_false, if_true,
            ite_false, ite_true, hpn]
          simp only [Option.some.injEq, Prod.mk.injEq, Json.num.injEq]
          exact ⟨by omega, trivial⟩
  | hstr s =>
    intro fuel rest hf _
    match fuel with
    | 0 => exact absurd hf (by simp [needJ])
    | f + 1 =>
      have hprint : printChars (.str s) ++ rest
          = '"' :: (escapeChars s.data ++ '"' :: rest) := by
        show '"' :: (escapeChars s.data ++ ['"']) ++ rest = _
        simp
      rw [hprint]
      show (match parseStrChars (escapeChars s.data ++ '"' :: rest) with
            | some (l, r) => some (Json.str ⟨l⟩, r)
            | none => none) = _
      rw [parseStrChars_escape s.data rest]
  | harr xs ihx =>
    intro fuel rest hf _
    match fuel with
    | 0 => exact absurd hf (by simp [needJ])
    | f + 1 =>
      cases xs with
      | nil =>
        show parseVal (f + 1) ('[' :: ']' :: rest) = some (.arr [], rest)
        rfl
      | cons x xs' =>
        obtain ⟨t, ht⟩ := printElems_shape x xs'
        obtain ⟨c, cs, hc, hcne, _⟩ := printChars_head x
        have hprint : printChars (.arr (x :: xs')) ++ rest
            = '[' :: (printElems (x :: xs') ++ ']' :: rest) := by
          show '[' :: (printElems (x :: xs') ++ [']']) ++ rest = _
          simp
        have hhead : printElems (x :: xs') ++ ']' :: rest
            = c :: (cs ++ t ++ ']' :: rest) := by
          rw [ht, hc]; simp
        have helems : parseElems f (printElems (x :: xs') ++ ']' :: rest)
            = some (x :: xs', rest) :=
          parseElems_print (x :: xs') ihx f rest (by simp)
            (by simp [needJ] at hf; omega)
        rw [hprint]
        show (if (printElems (x :: xs') ++ ']' :: rest).head? = some ']' then
                some (Json.arr [], (printElems (x :: xs') ++ ']' :: rest).tail)
              else match parseElems f (printElems (x :: xs') ++ ']' :: rest) with
                | some (xs, r) => some (Json.arr xs, r)
                | none => none) = _
        rw [if_neg (by rw [hhead]; simp [hcne]), helems]
  | hobj kvs ihkv =>
    intro fuel rest hf _
    match fuel with
    | 0 => exact absurd hf (by simp [needJ])
    | f + 1 =>
      cases kvs with
      | nil =>
        show parseVal (f + 1) ('\x7b' :: '\x7d' :: rest) = some (.obj [], rest)
        rfl
      | cons kv kvs' =>
        have hprint : printChars (.obj (kv :: kvs')) ++ rest
            = '\x7b' :: (printMembers (kv :: kvs') ++ '\x7d' :: rest) := by
          show '\x7b' :: (printMembers (kv :: kvs') ++ ['\x7d']) ++ rest = _
          simp
        have hhead : ∃ u, printMembers (kv :: kvs') ++ '\x7d' :: rest = '"' :: u := by
          obtain ⟨k, v⟩ := kv
          cases kvs' with
          | nil => exact ⟨_, rfl⟩
          | cons kv2 kvs2 => exact ⟨_, rfl⟩
        obtain ⟨u, hu⟩ := hhead
        have hmem : parseMembers f (printMembers (kv :: kvs') ++ '\x7d' :: rest)
            = some (kv :: kvs', rest) :=
          parseMembers_print (kv :: kvs') ihkv f rest (by simp)
            (by simp [needJ] at hf; omega)
        rw [hprint]
        show (if (printMembers (kv :: kvs') ++ '\x7d' :: rest).head? = some '\x7d' then
                some (Json.obj [], (printMembers (kv :: kvs') ++ '\x7d' :: rest).tail)
              else match parseMembers f (printMembers (kv :: kvs') ++ '\x7d' :: rest) with
                | some (kvs, r) => some (Json.obj kvs, r)
                | none => none) = _
        rw [if_neg (by rw [hu]; simp), hmem]

theorem needE_le (l : List Json)
    (ih : ∀ x ∈ l, needJ x ≤ 2 * (printChars x).length) :
    needE l ≤ 2 * (printElems l).length + 1 := by
  induction l with
  | nil => simp [needE]
  | cons x xs iht =>
    cases xs with
    | nil =>
      have := ih x (by simp)
      simp only [needE, printElems]
      omega
    | cons y ys =>
      have h1 := ih x (by simp)
      have h2 := iht (fun z hz => ih z (by simp [hz]))
      have hp : printElems (x :: y :: ys) = printChars x ++ ',' :: printElems (y :: ys) := rfl
      rw [hp]
      simp only [needE, List.length_append, List.length_cons] at h2 ⊢
      omega

theorem needM_le (l : List (String × Json))
    (ih : ∀ kv ∈ l, needJ kv.2 ≤ 2 * (printChars kv.2).length) :
    needM l ≤ 2 * (printMembers l).length + 1 := by
  induction l with
  | nil => simp [needM]
  | cons kv kvs iht =>
    obtain ⟨k, v⟩ := kv
    cases kvs with
    | nil =>
      have := ih (k, v) (by simp)
      have hp : printMembers [(k, v)]
          = '"' :: (escapeChars k.data ++ '"' :: ':' :: printChars v) := rfl
      rw [hp]
      simp only [needM, List.length_append, List.length_cons] at this ⊢
      omega
    | cons kv2 kvs2 =>
      have h1 := ih (k, v) (by simp)
      have h2 := iht (fun z hz => ih z (by simp [hz]))
      have hp : printMembers ((k, v) :: kv2 :: kvs2)
          = '"' :: (escapeChars k.data ++ '"' :: ':' :: printChars v)
            ++ ',' :: printMembers (kv2 :: kvs2) := rfl
      rw [hp]
      simp only [needM, List.length_append, List.length_cons] at h1 h2 ⊢
      omega

theorem needJ_le (j : Json) : needJ j ≤ 2 * (printChars j).length := by
  induction j using Json.my_ind with
  | hnull => simp [needJ, printChars]
  | hbool b => cases b <;> simp [needJ, printChars]
  | hnum n =>
    have : (printChars (.num n)).length ≥ 1 := by
      obtain ⟨c, cs, hc, -, -⟩ := printChars_head (.num n)
      rw [hc]; simp
    simp only [needJ]; omega
  | hstr s => simp only [needJ, printChars, List.length_cons]; omega
  | harr xs ih =>
    have h := needE_le xs ih
    have hp : printChars (.arr xs) = '[' :: (printElems xs ++ [']']) := rfl
    rw [show needJ (.arr xs) = 1 + needE xs from rfl, hp]
    simp only [List.length_cons, List.length_append] at h ⊢
    omega
  | hobj kvs ih =>
    have h := needM_le kvs ih
    have hp : printChars (.obj kvs) = '\x7b' :: (printMembers kvs ++ ['\x7d']) := rfl
    rw [show needJ (.obj kvs) = 1 + needM kvs from rfl, hp]
    simp only [List.length_cons, List.length_append] at h ⊢
    omega

/-- `JSON.parse ∘ JSON.stringify = id`: the code's reliance on recovering a
stored snapshot from its serialized text is sound in the model. -/
theorem parseJson_printJson (j : Json) : parseJson (printJson j) = some j := by
  have hfuel : needJ j ≤ 2 * (printChars j).length + 2 := by
    have := needJ_le j; omega
  have hp := parseVal_print j (2 * (printChars j).length + 2) [] hfuel headNotDigit_nil
  rw [List.append_nil] at hp
  show (match parseVal (2 * (printChars j).length + 2) (printChars j) with
        | some (r, []) => some r
        | _ => none) = some j
  rw [hp]

/-! ## The change detector (`ChangeDetector.js`, `RecordError.js`)

Timestamps ("Last Modified" / "Last Processed" values and the in-memory
watermark) are modelled as integer milliseconds since the Unix epoch. -/

/-- "N second overlap for lastModified" — `overlapMs = 5 * 1000`. -/
def overlapMs : Int := 5 * 1000

/-- "Airtable only allows 10 records at a time to be updated". -/
def UPDATE_BATCH_SIZE : Nat := 10

/-- Cause of a JS exception (here only the `SyntaxError` thrown by
`JSON.parse`, carrying the offending text). -/
inductive Cause where
  | parseError (input : String)
deriving Repr, DecidableEq

/-- `RecordError` (`RecordError.js`): `message` is the record id passed to
`super(recordId)`; `cause` is the underlying error. -/
structure RecordError where
  message : String
  cause : Cause
deriving Repr, DecidableEq

/-- Constructor options (`config`); `none` models an absent property. -/
structure Options where
  metaFieldName : Option String := none
  lastModifiedFieldName : Option String := none
  lastProcessedFieldName : Option String := none
  writeDelayMs : Option Nat := none
  sensitiveFields : Option (List String) := none
  autoUpdateEnabled : Option Bool := none

/-- JS `x || d` for an optional boolean property (only `true` is truthy). -/
def jsOrBool (x : Option Bool) (d : Bool) : Bool :=
  match x with
  | some true => true
  | _ => d

/-- JS `x || d` for an optional string property (`""` is falsy). -/
def jsOrStr (x : Option String) (d : String) : String :=
  match x with
  | some s => if s = "" then d else s
  | none => d

/-- JS `x || d` for an optional numeric property (`0` is falsy; with `d = 0`
the result is unchanged). -/
def jsOrNat (x : Option Nat) (d : Nat) : Nat :=
  match x with
  | some n => if n = 0 then d else n
  | none => d

/-- JS `x || []` for an optional array property (arrays are always truthy). -/
def jsOrList (x : Option (List String)) : List String :=
  match x with
  | some l => l
  | none => []

/-- The state of a `ChangeDetector` instance. -/
structure Detector where
  tableName : String
  metaFieldName : String
  lastModifiedFieldName : String
  lastProcessedFieldName : String
  writeDelayMs : Nat
  sensitiveFields : List String
  autoUpdateEnabled : Bool
  lastModified : Int
deriving Repr, DecidableEq

/-- `new ChangeDetector(table, config)`; `lastModified = new Date(0)`. -/
def mkChangeDetector (tableName : String) (config : Option Options) : Detector :=
  let options := config.getD {}
  { tableName := tableName
    lastModified := 0
    metaFieldName := jsOrStr options.metaFieldName "Meta"
    lastModifiedFieldName := jsOrStr options.lastModifiedFieldName "Last Modified"
    lastProcessedFieldName := jsOrStr options.lastProcessedFieldName ""
    writeDelayMs := jsOrNat options.writeDelayMs 0
    sensitiveFields := jsOrList options.sensitiveFields
    autoUpdateEnabled := jsOrBool options.autoUpdateEnabled true }

/-- An Airtable record as the API returns it. -/
structure Rec where
  id : String
  fields : Fields
deriving Repr, DecidableEq

/-- `record.get(fieldName)`. -/
def Rec.get (r : Rec) (f : String) : Option Json := lookupF r.fields f

/-- JS string coercion `String(v)`, as `JSON.parse` applies to a non-string
argument.  Only reachable if the configured meta field is not a text field
(never the case in the documented Airtable setup); arrays are abbreviated. -/
def jsToString : Json → String
  | .str s => s
  | .num n => ⟨intChars n⟩
  | .bool true => "true"
  | .bool false => "false"
  | .null => "null"
  | .arr _ => "[array]"
  | .obj _ => "[object Object]"

/-- `if (!meta.lastValues) meta.lastValues = {}`.  A property write to a
non-object primitive is a silent no-op in non-strict JS. -/
def ensureLastValues : Json → Json
  | .obj kvs =>
    if truthy (lookupF kvs "lastValues") then .obj kvs
    else .obj (setF kvs "lastValues" (.obj []))
  | j => j

/-- `getNormalizedMeta(record)`: `{lastValues: {}}` when the meta field is
falsy (absent/empty), otherwise `JSON.parse` of its text, throwing a
`RecordError(record.id, cause)` when parsing fails. -/
def getNormalizedMeta (d : Detector) (r : Rec) : Except RecordError Json :=
  if ¬ truthy (lookupF r.fields d.metaFieldName) then
    .ok (.obj [("lastValues", .obj [])])
  else
    let raw := match lookupF r.fields d.metaFieldName with
               | some v => jsToString v
               | none => ""
    match parseJson raw with
    | none => .error ⟨r.id, .parseError raw⟩
    | some meta => .ok (ensureLastValues meta)

/-- The `lastValues` object held inside a normalized meta.  When the meta
(or its `lastValues`) is not an object the JS code would crash on first
use; the model reads the empty mapping there instead, and no claim depends
on that corner. -/
def lastValuesOf (meta : Json) : Fields :=
  match meta with
  | .obj kvs =>
    match lookupF kvs "lastValues" with
    | some (.obj l) => l
    | _ => []
  | _ => []

/-- Overwrite `meta.lastValues` (the write `meta.lastValues = fields`, and
also the effect of in-place deletes on the `lastValues` object).  A no-op
on a non-object meta, as a JS property write to a primitive is. -/
def setLastValues (meta : Json) (fs : Fields) : Json :=
  match meta with
  | .obj kvs => .obj (setF kvs "lastValues" (.obj fs))
  | j => j

/-- A record after `enrichRecord`: the deep-copied record together with the
closure state behind `getTableName`/`getPrior`/`getMeta`/`didChange`.
`lastSetValues` is `_.keys(lastValues)` captured at enrichment time. -/
structure Enriched where
  id : String
  fields : Fields
  meta : Json
  lastSetValues : List String
  tableName : String
deriving Repr, DecidableEq

/-- `record.get(field)` on the enriched record. -/
def Enriched.get (e : Enriched) (f : String) : Option Json := lookupF e.fields f

/-- `record.getPrior(field)`: reads the current (possibly later mutated)
`lastValues` object. -/
def Enriched.getPrior (e : Enriched) (f : String) : Option Json :=
  lookupF (lastValuesOf e.meta) f

/-- `record.didChange(field)`: first-observation short-circuit on the key
list captured at enrichment, else deep comparison of prior vs current. -/
def Enriched.didChange (e : Enriched) (f : String) : Bool :=
  e.lastSetValues.isEmpty || !(decide (e.getPrior f = e.get f))

/-- `enrichRecord(record)`. -/
def enrichRecord (d : Detector) (r : Rec) : Except RecordError Enriched :=
  (getNormalizedMeta d r).map fun meta =>
    { id := r.id
      fields := r.fields
      meta := meta
      lastSetValues := keysF (lastValuesOf meta)
      tableName := d.tableName }

/-- The `ignoredFields` list built by `hasFieldChanges`. -/
def ignoredFields (d : Detector) : List String :=
  [d.lastModifiedFieldName, d.metaFieldName] ++ d.sensitiveFields
    ++ (if d.lastProcessedFieldName ≠ "" then [d.lastProcessedFieldName] else [])

/-- `hasFieldChanges(record)`: the verdict, paired with the record as
mutated by the in-place `delete lastValues[ignoredField]` loop. -/
def hasFieldChangesM (d : Detector) (e : Enriched) : Bool × Enriched :=
  let fields := deleteAll e.fields (ignoredFields d)
  let lv := deleteAll (lastValuesOf e.meta) (ignoredFields d)
  let e' := { e with meta := setLastValues e.meta lv }
  (!(eqF fields lv), e')

/-- Throwing variant of `List.map` (a JS `Array.map` whose callback throws
propagates the first exception). -/
def mapMErr (f : α → Except ε β) : List α → Except ε (List β)
  | [] => .ok []
  | x :: xs =>
    match f x with
    | .error e => .error e
    | .ok y =>
      match mapMErr f xs with
      | .error e => .error e
      | .ok ys => .ok (y :: ys)

/-- The cutoff `new Date(Math.max(lastModified - overlapMs, 0))`. -/
def cutoffOf (d : Detector) : Int := max (d.lastModified - overlapMs) 0

/-- The remote store's evaluation of the `filterByFormula`
`({lastModifiedField} > 'cutoff')`; the last-modified field of a row holds
a `Json.num` timestamp. -/
def matchesFilter (d : Detector) (cutoff : Int) (r : Rec) : Bool :=
  match lookupF r.fields d.lastModifiedFieldName with
  | some (.num t) => cutoff < t
  | _ => false

/-- `getModifiedRecords()`: select rows past the cutoff and enrich each
(`records.map(...)`, so the first parse failure rejects the whole batch). -/
def getModifiedRecords (d : Detector) (table : List Rec) : Except RecordError (List Enriched) :=
  mapMErr (enrichRecord d) (table.filter (matchesFilter d (cutoffOf d)))

/-- One staged update `{id, fields}`. -/
structure RecUpdate where
  id : String
  fields : Fields
deriving Repr, DecidableEq

/-- The update `updateRecords` stages for one record: re-parse the meta
from the record's fields, set `meta.lastValues` to the fields minus the
meta field and minus the sensitive fields, serialize it, and (when
configured) stamp the last-processed field with the current time. -/
def buildUpdate (d : Detector) (now : Int) (record : Enriched) : Except RecordError RecUpdate :=
  match getNormalizedMeta d ⟨record.id, record.fields⟩ with
  | .error e => .error e
  | .ok meta0 =>
    let fields := deleteAll (deleteF record.fields d.metaFieldName) d.sensitiveFields
    let meta := setLastValues meta0 fields
    let newFields : Fields := [(d.metaFieldName, .str (printJson meta))]
    let newFields := if d.lastProcessedFieldName ≠ "" then
        setF newFields d.lastProcessedFieldName (.num now)
      else newFields
    .ok ⟨record.id, newFields⟩

/-- `_.chunk` (fuel-indexed for kernel evaluation). -/
def chunkAux (n : Nat) : Nat → List α → List (List α)
  | 0, _ => []
  | _, [] => []
  | fuel + 1, l => l.take n :: chunkAux n fuel (l.drop n)

/-- `_.chunk(l, n)`. -/
def chunkList (n : Nat) (l : List α) : List (List α) := chunkAux n l.length l

/-- Airtable `table.update(batch)` writes only the named fields of each
listed record (PATCH semantics); other fields and other records are
untouched. -/
def applyUpdate (table : List Rec) (u : RecUpdate) : List Rec :=
  table.map (fun r =>
    if r.id = u.id then ⟨r.id, u.fields.foldl (fun fs kv => setF fs kv.1 kv.2) r.fields⟩
    else r)

/-- One `table.update(batch)` call. -/
def applyBatch (table : List Rec) (b : List RecUpdate) : List Rec :=
  b.foldl applyUpdate table

/-- `updateRecords(records)`: build all updates, then issue them in batches
of `UPDATE_BATCH_SIZE` (the inter-batch `wait(writeDelayMs)` has no
observable effect in the model).  Returns the batches issued and the
resulting remote table. -/
def updateRecords (d : Detector) (now : Int) (table : List Rec) (records : List Enriched) :
    Except RecordError (List (List RecUpdate) × List Rec) :=
  if records.isEmpty then .ok ([], table)
  else
    match mapMErr (buildUpdate d now) records with
    | .error e => .error e
    | .ok updates =>
      let batches := chunkList UPDATE_BATCH_SIZE updates
      .ok (batches, batches.foldl applyBatch table)

/-- `rModified ? new Date(rModified).getTime() : 0` for one examined row. -/
def recTime (d : Detector) (e : Enriched) : Int :=
  match lookupF e.fields d.lastModifiedFieldName with
  | some v => if truthy (some v) then (match v with | .num t => t | _ => 0) else 0
  | none => 0

/-- `_.max` over a JS array (`undefined` on an empty array). -/
def jsMaxList (l : List Int) : Option Int :=
  l.foldl (fun acc x =>
    match acc with
    | none => some x
    | some a => some (max a x)) none

/-- `updateLastModified(records)`: assign the maximum last-modified time of
the given records (`maxLastModified || 0`); no-op on an empty list. -/
def updateLastModified (d : Detector) (records : List Enriched) : Detector :=
  if records.isEmpty then d
  else
    { d with lastModified :=
        match jsMaxList (records.map (recTime d)) with
        | some m => m
        | none => 0 }

/-- Everything observable about one `pollOnce()` cycle. -/
structure PollOutcome where
  results : List Enriched
  detector : Detector
  table : List Rec
  batches : List (List RecUpdate)
deriving Repr, DecidableEq

/-- `pollOnce()`.  `now` is the clock read during write-back.  The filter
callback `r => this.hasFieldChanges(r)` runs on every examined record, so
each record's `lastValues` mutation happens whether or not it passed. -/
def pollOnce (d : Detector) (table : List Rec) (now : Int) : Except RecordError PollOutcome :=
  match getModifiedRecords d table with
  | .error e => .error e
  | .ok toExamine =>
    let stepped := toExamine.map (hasFieldChangesM d)
    let recordsWithFieldChanges := (stepped.filter (fun p => p.1)).map (fun p => p.2)
    let results := recordsWithFieldChanges
    if results.isEmpty then .ok ⟨results, d, table, []⟩
    else
      match (if d.autoUpdateEnabled then updateRecords d now table recordsWithFieldChanges
             else .ok ([], table)) with
      | .error e => .error e
      | .ok bt =>
        .ok ⟨results, updateLastModified d (stepped.map (fun p => p.2)), bt.2, bt.1⟩

/-- What the wrapped task of `pollWithInterval` does with one cycle's
outcome: on a `RecordError` with `errFunc` supplied the handler receives
`(e.cause, e.message)` — the cause and the record id — and the task
resolves; without `errFunc` the error is rethrown. -/
def pollTaskRun (hasErrFunc : Bool) (outcome : Except RecordError (List Enriched)) :
    List (Cause × Option String) × Except RecordError Unit :=
  match outcome with
  | .ok _ => ([], .ok ())
  | .error e =>
    if hasErrFunc then ([(e.cause, some e.message)], .ok ())
    else ([], .error e)

/-- One iteration of `schedule`'s loop: a rejected task is caught,
reported (`errFunc(err)` with the `RecordError` unwrapped to its cause and
no record id), and in every case the loop waits the interval and
continues. -/
def scheduleStep (hasErrFunc : Bool) (taskResult : Except RecordError Unit) :
    List (Cause × Option String) × Bool :=
  match taskResult with
  | .ok _ => ([], true)
  | .error e => (if hasErrFunc then [(e.cause, none)] else [], true)

/-- One scheduler tick of `pollWithInterval`: all handler invocations made,
and whether the schedule continues with its next tick. -/
def pollTick (hasErrFunc : Bool) (outcome : Except RecordError (List Enriched)) :
    List (Cause × Option String) × Bool :=
  let (calls, res) := pollTaskRun hasErrFunc outcome
  let (calls2, cont) := scheduleStep hasErrFunc res
  (calls ++ calls2, cont)

instance {ε α : Type} [DecidableEq ε] [DecidableEq α] : DecidableEq (Except ε α)
  | .ok a, .ok b =>
    if h : a = b then .isTrue (by rw [h]) else .isFalse (by simp [h])
  | .error a, .error b =>
    if h : a = b then .isTrue (by rw [h]) else .isFalse (by simp [h])
  | .ok _, .error _ => .isFalse (by simp)
  | .error _, .ok _ => .isFalse (by simp)

/-! ## Supporting lemmas -/

/-- Projections of a poll outcome (the error case projects to the empty /
absent value), used to state closed facts about whole cycles. -/
def resultsOf : Except RecordError PollOutcome → List Enriched
  | .ok o => o.results
  | .error _ => []

def batchesOf : Except RecordError PollOutcome → List (List RecUpdate)
  | .ok o => o.batches
  | .error _ => []

def detectorOf : Except RecordError PollOutcome → Option Detector
  | .ok o => some o.detector
  | .error _ => none

def tableOf : Except RecordError PollOutcome → Option (List Rec)
  | .ok o => some o.table
  | .error _ => none

def lastModifiedOf (x : Except RecordError PollOutcome) : Option Int :=
  (detectorOf x).map Detector.lastModified

theorem mapMErr_ok_iff (f : α → Except ε β) :
    ∀ (l : List α) (ys : List β), mapMErr f l = .ok ys
      ↔ List.Forall₂ (fun x y => f x = .ok y) l ys := by
  intro l
  induction l with
  | nil =>
    intro ys
    constructor
    · intro h
      simp only [mapMErr] at h
      injection h with h
      rw [← h]
      exact List.Forall₂.nil
    · intro h
      cases h
      rfl
  | cons x xs ih =>
    intro ys
    constructor
    · intro h
      simp only [mapMErr] at h
      cases hfx : f x with
      | error e => rw [hfx] at h; exact absurd h (by simp)
      | ok y =>
        rw [hfx] at h
        cases hm : mapMErr f xs with
        | error e => rw [hm] at h; exact absurd h (by simp)
        | ok ys' =>
          rw [hm] at h
          injection h with h
          rw [← h]
          exact List.Forall₂.cons hfx ((ih ys').mp hm)
    · intro h
      cases h with
      | cons hxy htail =>
        simp only [mapMErr, hxy, (ih _).mpr htail]

theorem mapMErr_ok_mem (f : α → Except ε β) (l : List α) (ys : List β)
    (h : mapMErr f l = .ok ys) : ∀ y ∈ ys, ∃ x ∈ l, f x = .ok y := by
  have h2 := (mapMErr_ok_iff f l ys).mp h
  clear h
  induction h2 with
  | nil => intro y hy; exact absurd hy (by simp)
  | cons hxy _ ih =>
    intro y hy
    rcases List.mem_cons.mp hy with rfl | hy'
    · exact ⟨_, by simp, hxy⟩
    · obtain ⟨x', hx', hfx'⟩ := ih y hy'
      exact ⟨x', by simp [hx'], hfx'⟩

theorem enrichRecord_ok (d : Detector) (r : Rec) (e : Enriched)
    (h : enrichRecord d r = .ok e) :
    e.id = r.id ∧ e.fields = r.fields ∧ getNormalizedMeta d r = .ok e.meta
      ∧ e.lastSetValues = keysF (lastValuesOf e.meta) ∧ e.tableName = d.tableName := by
  unfold enrichRecord at h
  cases hg : getNormalizedMeta d r with
  | error err => rw [hg] at h; exact absurd h (by simp [Except.map])
  | ok meta =>
    rw [hg] at h
    simp only [Except.map] at h
    injection h with h
    rw [← h]
    exact ⟨rfl, rfl, by simp [hg], rfl, rfl⟩

theorem hasFieldChangesM_proj (d : Detector) (e : Enriched) :
    ((hasFieldChangesM d e).2).id = e.id
      ∧ ((hasFieldChangesM d e).2).fields = e.fields
      ∧ ((hasFieldChangesM d e).2).lastSetValues = e.lastSetValues
      ∧ ((hasFieldChangesM d e).2).tableName = e.tableName
      ∧ ((hasFieldChangesM d e).2).meta
          = setLastValues e.meta (deleteAll (lastValuesOf e.meta) (ignoredFields d)) := by
  simp [hasFieldChangesM]

theorem hasFieldChangesM_fst (d : Detector) (e : Enriched) :
    (hasFieldChangesM d e).1
      = !(eqF (deleteAll e.fields (ignoredFields d))
              (deleteAll (lastValuesOf e.meta) (ignoredFields d))) := rfl

theorem foldl_max_gt (c : Int) :
    ∀ (xs : List Int) (a : Int), c < a → (∀ x ∈ xs, c < x) → c < xs.foldl max a := by
  intro xs
  induction xs with
  | nil => intro a ha _; exact ha
  | cons x xs ih =>
    intro a ha hxs
    simp only [List.foldl]
    exact ih (max a x) (by have := hxs x (by simp); omega)
      (fun z hz => hxs z (by simp [hz]))

theorem jsMaxList_cons (x : Int) (xs : List Int) :
    jsMaxList (x :: xs) = some (xs.foldl max x) := by
  have key : ∀ (l : List Int) (a : Int),
      l.foldl (fun acc y => match acc with
        | none => some y
        | some b => some (max b y)) (some a) = some (l.foldl max a) := by
    intro l
    induction l with
    | nil => intro a; rfl
    | cons y ys ih => intro a; simp only [List.foldl]; exact ih (max a y)
  simp only [jsMaxList, List.foldl]
  exact key xs x

theorem lookupF_eq_none_iff (fs : Fields) (k : String) :
    lookupF fs k = none ↔ k ∉ keysF fs := by
  induction fs with
  | nil => simp [lookupF, keysF]
  | cons p fs ih =>
    obtain ⟨k', v⟩ := p
    by_cases hk : k' = k
    · subst hk; simp [lookupF, keysF]
    · simp [lookupF, keysF, hk, ih, Ne.symm hk]

theorem lookupF_filterKey (q : String → Bool) :
    ∀ (fs : Fields) (k : String),
      lookupF (fs.filter (fun p => q p.1)) k = if q k then lookupF fs k else none := by
  intro fs
  induction fs with
  | nil => intro k; simp [lookupF]
  | cons p fs ih =>
    intro k
    obtain ⟨k', v⟩ := p
    by_cases hq : q k'
    · rw [List.filter_cons_of_pos (by simpa using hq)]
      by_cases hk : k' = k
      · subst hk; simp [lookupF, hq]
      · simp [lookupF, hk, ih]
    · rw [List.filter_cons_of_neg (by simpa using hq)]
      by_cases hk : k' = k
      · subst hk; simp [lookupF, hq, ih]
      · simp [lookupF, hk, ih]

theorem deleteAll_eq_filter :
    ∀ (ks : List String) (fs : Fields),
      deleteAll fs ks = fs.filter (fun p => decide (p.1 ∉ ks)) := by
  intro ks
  induction ks with
  | nil => intro fs; simp [deleteAll]
  | cons k ks ih =>
    intro fs
    have h1 : deleteAll fs (k :: ks) = deleteAll (deleteF fs k) ks := rfl
    rw [h1, ih]
    unfold deleteF
    rw [List.filter_filter]
    apply List.filter_congr
    intro p _
    by_cases h2 : p.1 = k <;> by_cases h3 : p.1 ∈ ks <;> simp [h2, h3]

theorem lookupF_deleteAll (fs : Fields) (ks : List String) (k : String) :
    lookupF (deleteAll fs ks) k = if k ∈ ks then none else lookupF fs k := by
  rw [deleteAll_eq_filter]
  have := lookupF_filterKey (fun s => decide (s ∉ ks)) fs k
  by_cases hk : k ∈ ks <;> simp [hk] at this ⊢ <;> exact this

theorem eqF_eq_true_iff (a b : Fields) :
    eqF a b = true ↔ ∀ k, lookupF a k = lookupF b k := by
  unfold eqF
  rw [List.all_eq_true]
  constructor
  · intro h k
    by_cases hka : k ∈ keysF a
    · simpa using h k (by simp [hka])
    · by_cases hkb : k ∈ keysF b
      · simpa using h k (by simp [hkb])
      · rw [(lookupF_eq_none_iff a k).mpr hka, (lookupF_eq_none_iff b k).mpr hkb]
  · intro h k _
    simp [h k]

theorem pollOnce_ok_elim (d : Detector) (table : List Rec) (now : Int) (o : PollOutcome)
    (h : pollOnce d table now = .ok o) :
    ∃ toExamine, getModifiedRecords d table = .ok toExamine ∧
      ((((toExamine.map (hasFieldChangesM d)).filter (fun p => p.1)).map (fun p => p.2) = []
          ∧ o = ⟨[], d, table, []⟩)
       ∨ (((toExamine.map (hasFieldChangesM d)).filter (fun p => p.1)).map (fun p => p.2) ≠ []
          ∧ ∃ bt, (if d.autoUpdateEnabled then
                     updateRecords d now table
                       (((toExamine.map (hasFieldChangesM d)).filter (fun p => p.1)).map (fun p => p.2))
                   else .ok ([], table)) = .ok bt
            ∧ o = ⟨((toExamine.map (hasFieldChangesM d)).filter (fun p => p.1)).map (fun p => p.2),
                   updateLastModified d ((toExamine.map (hasFieldChangesM d)).map (fun p => p.2)),
                   bt.2, bt.1⟩)) := by
  cases hg : getModifiedRecords d table with
  | error e =>
    unfold pollOnce at h
    rw [hg] at h
    exact absurd h (by simp)
  | ok toExamine =>
    refine ⟨toExamine, rfl, ?_⟩
    unfold pollOnce at h
    rw [hg] at h
    simp only [] at h
    by_cases hemp : (((toExamine.map (hasFieldChangesM d)).filter (fun p => p.1)).map (fun p => p.2)).isEmpty = true
    · left
      rw [if_pos hemp] at h
      have hnil := List.isEmpty_iff.mp hemp
      injection h with h
      exact ⟨hnil, by rw [← h, hnil]⟩
    · right
      rw [if_neg hemp] at h
      refine ⟨fun hc => hemp (by simp [hc]), ?_⟩
      cases hup : (if d.autoUpdateEnabled then
                     updateRecords d now table
                       (((toExamine.map (hasFieldChangesM d)).filter (fun p => p.1)).map (fun p => p.2))
                   else .ok ([], table)) with
      | error e => rw [hup] at h; exact absurd h (by simp)
      | ok bt =>
        rw [hup] at h
        injection h with h
        exact ⟨bt, rfl, by rw [← h]⟩

/-- Every record examined in a cycle came through the fetch filter, so its
last-modified timestamp exceeds the cycle's cutoff. -/
theorem examined_time_gt (d : Detector) (table : List Rec) (toExamine : List Enriched)
    (hg : getModifiedRecords d table = .ok toExamine)
    (e : Enriched) (he : e ∈ (toExamine.map (hasFieldChangesM d)).map (fun p => p.2)) :
    cutoffOf d < recTime d e := by
  obtain ⟨p, hp, rfl⟩ := List.mem_map.mp he
  obtain ⟨e₀, he₀, rfl⟩ := List.mem_map.mp hp
  obtain ⟨r, hr, henr⟩ := mapMErr_ok_mem _ _ _ hg e₀ he₀
  obtain ⟨-, hfields, -, -, -⟩ := enrichRecord_ok d r e₀ henr
  obtain ⟨-, hfields2, -, -, -⟩ := hasFieldChangesM_proj d e₀
  have hmatch : matchesFilter d (cutoffOf d) r = true := (List.mem_filter.mp hr).2
  unfold matchesFilter at hmatch
  have hcut : (0 : Int) ≤ cutoffOf d := le_max_right _ _
  cases hl : lookupF r.fields d.lastModifiedFieldName with
  | none => rw [hl] at hmatch; exact absurd hmatch (by simp)
  | some v =>
    rw [hl] at hmatch
    cases v with
    | num t =>
      have ht : cutoffOf d < t := by simpa using hmatch
      unfold recTime
      rw [hfields2, hfields, hl]
      have htr : truthy (some (Json.num t)) = true := by
        simp [truthy]; omega
      simpa [htr] using ht
    | null => exact absurd hmatch (by simp)
    | bool b => exact absurd hmatch (by simp)
    | str s => exact absurd hmatch (by simp)
    | arr xs => exact absurd hmatch (by simp)
    | obj kvs => exact absurd hmatch (by simp)

/-! ## The claims -/

/-- C1 (status `code_bug`): the constructor computes
`options.autoUpdateEnabled || true`, which is `true` even when the caller
passed `autoUpdateEnabled: false` (a JS boolean-default slip, contradicting
the README's description of the option); consequently `pollOnce` still
issues a write-back for a changed row under that configuration.  The
default-when-absent part of the claim does hold. -/
theorem C1_autoUpdate_flag_bug :
    (mkChangeDetector "MyTableName" (some { autoUpdateEnabled := some false })).autoUpdateEnabled
      = true
    ∧ (mkChangeDetector "MyTableName" none).autoUpdateEnabled = true
    ∧ batchesOf (pollOnce (mkChangeDetector "MyTableName" (some { autoUpdateEnabled := some false }))
        [⟨"rec0", [("Last Modified", Json.num 1000), ("Name", Json.str "A")]⟩] 2000) ≠ [] := by
  decide

/-- C2 counterexample: a two-cycle run of one instance (fresh watermark,
then watermark 10000) in which the second cycle fetches a changed row whose
last-modified time 7000 lies inside the 5s overlap window, and the
watermark is rolled back from 10000 to 7000. -/
theorem C2_watermark_decrease_counterexample :
    detectorOf (pollOnce (mkChangeDetector "T" none)
        [⟨"rA", [("Last Modified", Json.num 10000), ("Name", Json.str "a")]⟩] 10500)
      = some { mkChangeDetector "T" none with lastModified := 10000 }
    ∧ lastModifiedOf (pollOnce { mkChangeDetector "T" none with lastModified := 10000 }
        [⟨"rB", [("Last Modified", Json.num 7000), ("Name", Json.str "b")]⟩] 11000)
      = some 7000
    ∧ (7000 : Int) < 10000 := by
  decide

/-- C2 (amended): the watermark starts at the epoch, and a successful cycle
either leaves it unchanged (in particular whenever zero rows were fetched)
or sets it to a value strictly above the fetch cutoff
`max(watermark − overlapMs, 0)` — so it can decrease, but by less than the
5-second overlap window. -/
theorem C2_watermark_bounded (tn : String) (cfg : Option Options)
    (d : Detector) (table : List Rec) (now : Int) (o : PollOutcome)
    (h : pollOnce d table now = .ok o) :
    (mkChangeDetector tn cfg).lastModified = 0
    ∧ (o.detector.lastModified = d.lastModified ∨ cutoffOf d < o.detector.lastModified)
    ∧ (table.filter (matchesFilter d (cutoffOf d)) = [] → o.detector.lastModified = d.lastModified) := by
  refine ⟨rfl, ?_⟩
  obtain ⟨toExamine, hg, hcases⟩ := pollOnce_ok_elim d table now o h
  rcases hcases with ⟨hnil, rfl⟩ | ⟨hne, bt, hup, rfl⟩
  · exact ⟨Or.inl rfl, fun _ => rfl⟩
  · constructor
    · right
      have hex : toExamine ≠ [] := by
        intro hx
        rw [hx] at hne
        exact hne rfl
      show cutoffOf d < (updateLastModified d ((toExamine.map (hasFieldChangesM d)).map (fun p => p.2))).lastModified
      unfold updateLastModified
      rw [if_neg (by simp [hex])]
      cases hx : (toExamine.map (hasFieldChangesM d)).map (fun p => p.2) with
      | nil => exact absurd hx (by simp [hex])
      | cons e es =>
        have hhead : cutoffOf d < recTime d e :=
          examined_time_gt d table toExamine hg e (by rw [hx]; simp)
        have htail : ∀ x ∈ es.map (recTime d), cutoffOf d < x := by
          intro x hxm
          obtain ⟨e', he', rfl⟩ := List.mem_map.mp hxm
          exact examined_time_gt d table toExamine hg e' (by rw [hx]; simp [he'])
        simp only [List.map_cons, jsMaxList_cons]
        exact foldl_max_gt _ _ _ hhead htail
    · intro hfe
      have : toExamine = [] := by
        unfold getModifiedRecords at hg
        rw [hfe] at hg
        simp only [mapMErr] at hg
        injection hg with hg
        exact hg.symm
      rw [this] at hne
      exact absurd rfl hne

/-- C2 witness: the amended theorem applied at a concrete cycle (a fresh
detector polling an empty remote table). -/
theorem C2_watermark_bounded_witness :
    (mkChangeDetector "T" none).lastModified = 0
    ∧ ((PollOutcome.mk [] (mkChangeDetector "T" none) [] []).detector.lastModified
          = (mkChangeDetector "T" none).lastModified
        ∨ cutoffOf (mkChangeDetector "T" none)
          < (PollOutcome.mk [] (mkChangeDetector "T" none) [] []).detector.lastModified)
    ∧ (List.filter (matchesFilter (mkChangeDetector "T" none) (cutoffOf (mkChangeDetector "T" none))) []
          = []
        → (PollOutcome.mk [] (mkChangeDetector "T" none) [] []).detector.lastModified
          = (mkChangeDetector "T" none).lastModified) :=
  C2_watermark_bounded "T" none (mkChangeDetector "T" none) [] 3000
    ⟨[], mkChangeDetector "T" none, [], []⟩ (by decide)

/-- C5 (confirmed): when a cycle rejects with a record-scoped error and an
`onError` handler was supplied, the `pollWithInterval` task catches it and
calls the handler with the underlying cause and the offending record's id
(`RecordError.message` is the id passed to `super(recordId)`), and the
scheduler proceeds to its next tick after the interval instead of
terminating. -/
theorem C5_record_error_reported_and_continues (e : RecordError) :
    pollTick true (.error e) = ([(e.cause, some e.message)], true) := rfl

theorem lookupF_append (a b : Fields) (k : String) :
    lookupF (a ++ b) k = ((lookupF a k).or (lookupF b k)) := by
  induction a with
  | nil => simp [lookupF]
  | cons p a ih =>
    obtain ⟨k', v⟩ := p
    by_cases hk : k' = k <;> simp [lookupF, hk, ih]

theorem lookupF_map_replace (fs : Fields) (k : String) (v : Json) (k' : String) :
    lookupF (fs.map (fun p => if p.1 = k then (k, v) else p)) k'
      = if k' = k then (if (lookupF fs k).isSome then some v else none)
        else lookupF fs k' := by
  induction fs with
  | nil => by_cases hk : k' = k <;> simp [lookupF, hk]
  | cons p fs ih =>
    obtain ⟨k₁, v₁⟩ := p
    simp only [List.map_cons]
    by_cases h1 : k₁ = k
    · subst h1
      rw [show (if ((k₁, v₁) : String × Json).1 = k₁ then (k₁, v) else (k₁, v₁)) = (k₁, v)
            from by simp]
      by_cases h2 : k' = k₁
      · simp [lookupF, h2, ih]
      · simp [lookupF, h2, Ne.symm h2, ih]
    · rw [show (if ((k₁, v₁) : String × Json).1 = k then (k, v) else (k₁, v₁)) = (k₁, v₁)
            from by simp [h1]]
      by_cases h2 : k₁ = k'
      · subst h2
        simp [lookupF, h1, ih, Ne.symm h1]
      · simp [lookupF, h1, h2, ih]

theorem lookupF_setF (fs : Fields) (k : String) (v : Json) (k' : String) :
    lookupF (setF fs k v) k' = if k' = k then some v else lookupF fs k' := by
  unfold setF
  by_cases hs : (lookupF fs k).isSome
  · rw [if_pos hs, lookupF_map_replace]
    by_cases hk : k' = k <;> simp [hk, hs]
  · rw [if_neg hs, lookupF_append]
    by_cases hk : k' = k
    · subst hk
      have : lookupF fs k' = none := by
        cases h : lookupF fs k' with
        | none => rfl
        | some _ => rw [h] at hs; simp at hs
      simp [this, lookupF]
    · simp only [lookupF, hk, if_false, ite_false]
      rw [if_neg (Ne.symm hk)]
      cases lookupF fs k' <;> simp

theorem printJson_ne_empty (j : Json) : printJson j ≠ "" := by
  obtain ⟨c, cs, hc, -, -⟩ := printChars_head j
  unfold printJson
  rw [hc]
  intro h
  have : (c :: cs).length = ("" : String).data.length := by
    rw [show c :: cs = (String.mk (c :: cs)).data from rfl, h]
  simp at this

theorem eqF_refl (a : Fields) : eqF a a = true :=
  (eqF_eq_true_iff a a).mpr (fun _ => rfl)

theorem eqF_false_of_ne (a b : Fields) (k : String) (h : lookupF a k ≠ lookupF b k) :
    eqF a b = false := by
  cases he : eqF a b with
  | false => rfl
  | true => exact absurd ((eqF_eq_true_iff a b).mp he k) h

theorem deleteAll_nil (ks : List String) : deleteAll [] ks = [] := by
  rw [deleteAll_eq_filter]
  rfl

theorem lastValuesOf_setLastValues_obj (kvs : List (String × Json)) (lv : Fields) :
    lastValuesOf (setLastValues (.obj kvs) lv) = lv := by
  show (match lookupF (setF kvs "lastValues" (Json.obj lv)) "lastValues" with
        | some (Json.obj l) => l
        | _ => []) = lv
  rw [lookupF_setF]
  simp

theorem setLastValues_nonobj (meta : Json) (lv : Fields)
    (h : ∀ kvs, meta ≠ .obj kvs) : setLastValues meta lv = meta := by
  cases meta with
  | obj kvs => exact absurd rfl (h kvs)
  | null => rfl
  | bool b => rfl
  | num n => rfl
  | str s => rfl
  | arr xs => rfl

theorem lastValuesOf_nonobj (meta : Json) (h : ∀ kvs, meta ≠ .obj kvs) :
    lastValuesOf meta = [] := by
  cases meta with
  | obj kvs => exact absurd rfl (h kvs)
  | null => rfl
  | bool b => rfl
  | num n => rfl
  | str s => rfl
  | arr xs => rfl

theorem buildUpdate_ok_elim (d : Detector) (now : Int) (e : Enriched) (u : RecUpdate)
    (h : buildUpdate d now e = .ok u) :
    ∃ meta0, getNormalizedMeta d ⟨e.id, e.fields⟩ = .ok meta0
      ∧ u.id = e.id
      ∧ u.fields = (if d.lastProcessedFieldName ≠ "" then
            setF [(d.metaFieldName, .str (printJson (setLastValues meta0
              (deleteAll (deleteF e.fields d.metaFieldName) d.sensitiveFields))))]
              d.lastProcessedFieldName (.num now)
          else [(d.metaFieldName, .str (printJson (setLastValues meta0
              (deleteAll (deleteF e.fields d.metaFieldName) d.sensitiveFields))))]) := by
  unfold buildUpdate at h
  cases hg : getNormalizedMeta d ⟨e.id, e.fields⟩ with
  | error err => rw [hg] at h; exact absurd h (by simp)
  | ok meta0 =>
    rw [hg] at h
    simp only [] at h
    injection h with h
    exact ⟨meta0, rfl, by rw [← h], by rw [← h]⟩

theorem mem_chunkAux (n : Nat) {α : Type} (x : α) :
    ∀ (fuel : Nat) (l : List α) (b : List α), b ∈ chunkAux n fuel l → x ∈ b → x ∈ l := by
  intro fuel
  induction fuel with
  | zero => intro l b hb _; exact absurd hb (by simp [chunkAux])
  | succ f ih =>
    intro l b hb hx
    cases l with
    | nil => exact absurd hb (by simp [chunkAux])
    | cons a l' =>
      simp only [chunkAux, List.mem_cons] at hb
      rcases hb with rfl | hb
      · exact List.take_subset _ _ hx
      · exact List.drop_subset _ _ (ih _ b hb hx)

theorem mem_chunkList (n : Nat) {α : Type} (l : List α) (b : List α) (x : α)
    (hb : b ∈ chunkList n l) (hx : x ∈ b) : x ∈ l :=
  mem_chunkAux n x l.length l b hb hx

theorem updateRecords_ok_elim (d : Detector) (now : Int) (table : List Rec)
    (records : List Enriched) (bt : List (List RecUpdate) × List Rec)
    (h : updateRecords d now table records = .ok bt) (hne : records ≠ []) :
    ∃ updates, mapMErr (buildUpdate d now) records = .ok updates
      ∧ bt.1 = chunkList UPDATE_BATCH_SIZE updates
      ∧ bt.2 = (chunkList UPDATE_BATCH_SIZE updates).foldl applyBatch table := by
  unfold updateRecords at h
  rw [if_neg (by simp [hne])] at h
  cases hm : mapMErr (buildUpdate d now) records with
  | error e => rw [hm] at h; exact absurd h (by simp)
  | ok updates =>
    rw [hm] at h
    simp only [] at h
    injection h with h
    exact ⟨updates, rfl, by rw [← h], by rw [← h]⟩

/-- C4 counterexample: the snapshot written back for a changed row stores
the row's "Last Modified" value inside `lastValues` (the JS test asserts
exactly this), so the stored snapshot does not exclude the last-modified
bookkeeping field. -/
theorem C4_snapshot_keeps_lastModified_counterexample :
    batchesOf (pollOnce (mkChangeDetector "T" none)
        [⟨"someRecord", [("Last Modified", Json.num 1000), ("Name", Json.str "test")]⟩] 2000)
      = [[⟨"someRecord",
           [("Meta", Json.str "\x7b\"lastValues\":\x7b\"Last Modified\":1000,\"Name\":\"test\"\x7d\x7d")]⟩]]
    ∧ lookupF (lastValuesOf (ensureLastValues
          ((parseJson "\x7b\"lastValues\":\x7b\"Last Modified\":1000,\"Name\":\"test\"\x7d\x7d").getD .null)))
        "Last Modified" = some (Json.num 1000) := by
  decide

/-- C4 (amended): for every row written back by `updateRecords` the stored
snapshot's `lastValues` is exactly the row's field mapping minus the meta
field and minus the sensitive fields — so it contains no meta-field key and
no sensitive key, but it retains the last-modified and last-processed
fields when they are present on the row. -/
theorem C4_lastValues_excludes_meta_and_sensitive (d : Detector) (now : Int)
    (table : List Rec) (records : List Enriched) (bt : List (List RecUpdate) × List Rec)
    (u : RecUpdate) (b : List RecUpdate)
    (hlp : d.lastProcessedFieldName ≠ d.metaFieldName)
    (h : updateRecords d now table records = .ok bt)
    (hb : b ∈ bt.1) (hu : u ∈ b) :
    ∃ e ∈ records, ∃ m : Json,
      lookupF u.fields d.metaFieldName = some (.str (printJson m))
      ∧ parseJson (printJson m) = some m
      ∧ lookupF (lastValuesOf m) d.metaFieldName = none
      ∧ (∀ s ∈ d.sensitiveFields, lookupF (lastValuesOf m) s = none)
      ∧ (∀ kvs, getNormalizedMeta d ⟨e.id, e.fields⟩ = .ok (.obj kvs) →
          lastValuesOf m = deleteAll (deleteF e.fields d.metaFieldName) d.sensitiveFields) := by
  have hne : records ≠ [] := by
    intro hrec
    rw [hrec] at h
    unfold updateRecords at h
    simp only [List.isEmpty_nil, if_pos] at h
    injection h with h
    rw [← h] at hb
    exact absurd hb (by simp)
  obtain ⟨updates, hm, hb1, -⟩ := updateRecords_ok_elim d now table records bt h hne
  rw [hb1] at hb
  have humem : u ∈ updates := mem_chunkList _ _ _ _ hb hu
  obtain ⟨e, he, hbe⟩ := mapMErr_ok_mem _ _ _ hm u humem
  obtain ⟨meta0, hg, -, hfields⟩ := buildUpdate_ok_elim d now e u hbe
  refine ⟨e, he, setLastValues meta0 (deleteAll (deleteF e.fields d.metaFieldName) d.sensitiveFields),
    ?_, parseJson_printJson _, ?_, ?_, ?_⟩
  · rw [hfields]
    by_cases hlpe : d.lastProcessedFieldName ≠ ""
    · rw [if_pos hlpe, lookupF_setF, if_neg (Ne.symm hlp)]
      simp [lookupF]
    · rw [if_neg hlpe]
      simp [lookupF]
  · cases hm0 : meta0 with
    | obj kvs =>
      rw [lastValuesOf_setLastValues_obj, lookupF_deleteAll]
      by_cases hms : d.metaFieldName ∈ d.sensitiveFields
      · rw [if_pos hms]
      · rw [if_neg hms]
        have : deleteF e.fields d.metaFieldName
            = e.fields.filter (fun p => decide (p.1 ≠ d.metaFieldName)) := rfl
        rw [this, lookupF_filterKey (fun s => decide (s ≠ d.metaFieldName))]
        simp
    | null => rfl
    | bool bb => rfl
    | num nn => rfl
    | str ss => rfl
    | arr xa => rfl
  · intro s hs
    cases hm0 : meta0 with
    | obj kvs =>
      rw [lastValuesOf_setLastValues_obj, lookupF_deleteAll, if_pos hs]
    | null => rfl
    | bool bb => rfl
    | num nn => rfl
    | str ss => rfl
    | arr xa => rfl
  · intro kvs hkvs
    rw [hg] at hkvs
    injection hkvs with hkvs
    rw [hkvs]
    exact lastValuesOf_setLastValues_obj _ _

/-- Concrete data shared by several witnesses: the scenario of the
repository's own mocha test (one new row, default configuration). -/
def sampleDetector : Detector := mkChangeDetector "tableName" none

def sampleRecord : Rec :=
  ⟨"someRecord", [("Last Modified", Json.num 1000), ("Name", Json.str "test")]⟩

def sampleEnriched : Enriched :=
  ⟨"someRecord", [("Last Modified", Json.num 1000), ("Name", Json.str "test")],
   .obj [("lastValues", .obj [])], [], "tableName"⟩

def sampleMetaStr : String :=
  "\x7b\"lastValues\":\x7b\"Last Modified\":1000,\"Name\":\"test\"\x7d\x7d"

def sampleUpdate : RecUpdate := ⟨"someRecord", [("Meta", Json.str sampleMetaStr)]⟩

def sampleBt : List (List RecUpdate) × List Rec :=
  ([[sampleUpdate]],
   [⟨"someRecord", [("Last Modified", Json.num 1000), ("Name", Json.str "test"),
                    ("Meta", Json.str sampleMetaStr)]⟩])

/-- C4 witness: the amended theorem applied to the test scenario's write. -/
theorem C4_lastValues_excludes_meta_and_sensitive_witness :
    ∃ e ∈ [sampleEnriched], ∃ m : Json,
      lookupF sampleUpdate.fields sampleDetector.metaFieldName = some (.str (printJson m))
      ∧ parseJson (printJson m) = some m
      ∧ lookupF (lastValuesOf m) sampleDetector.metaFieldName = none
      ∧ (∀ s ∈ sampleDetector.sensitiveFields, lookupF (lastValuesOf m) s = none)
      ∧ (∀ kvs, getNormalizedMeta sampleDetector ⟨e.id, e.fields⟩ = .ok (.obj kvs) →
          lastValuesOf m
            = deleteAll (deleteF e.fields sampleDetector.metaFieldName)
                sampleDetector.sensitiveFields) :=
  C4_lastValues_excludes_meta_and_sensitive sampleDetector 2000 [sampleRecord]
    [sampleEnriched] sampleBt sampleUpdate [sampleUpdate]
    (by decide) (by decide) (by decide) (by decide)

/-- C6 (confirmed): a row whose current fields agree with its stored
snapshot on every field outside the ignored bookkeeping set (last-modified
field, meta field, sensitive fields, configured last-processed field) is
never reported as changed. -/
theorem C6_ignored_only_changes_not_reported (d : Detector) (e : Enriched)
    (h : ∀ k, k ∉ ignoredFields d → lookupF e.fields k = lookupF (lastValuesOf e.meta) k) :
    (hasFieldChangesM d e).1 = false := by
  rw [hasFieldChangesM_fst]
  have heq : eqF (deleteAll e.fields (ignoredFields d))
      (deleteAll (lastValuesOf e.meta) (ignoredFields d)) = true := by
    rw [eqF_eq_true_iff]
    intro k
    rw [lookupF_deleteAll, lookupF_deleteAll]
    by_cases hk : k ∈ ignoredFields d
    · simp [hk]
    · simp only [hk, if_false, ite_false]
      exact h k hk
  rw [heq]
  rfl

/-- C6 witness: a record differing from its snapshot only in the
"Last Modified" field is not reported. -/
theorem C6_ignored_only_changes_not_reported_witness :
    (hasFieldChangesM sampleDetector
      ⟨"r", [("Last Modified", Json.num 2), ("Name", Json.str "x")],
       .obj [("lastValues", .obj [("Last Modified", Json.num 1), ("Name", Json.str "x")])],
       ["Last Modified", "Name"], "tableName"⟩).1 = false :=
  C6_ignored_only_changes_not_reported sampleDetector _ (by
    intro k hk
    have h1 : k ≠ "Last Modified" := fun hEq => hk (by rw [hEq]; decide)
    by_cases h2 : k = "Name"
    · rw [h2]; decide
    · show lookupF [("Last Modified", Json.num 2), ("Name", Json.str "x")] k = _
      rw [show lastValuesOf (Json.obj [("lastValues",
            Json.obj [("Last Modified", Json.num 1), ("Name", Json.str "x")])])
          = [("Last Modified", Json.num 1), ("Name", Json.str "x")] from rfl]
      simp [lookupF, Ne.symm h1, Ne.symm h2])

/-- C9 counterexample: a cycle on a row whose stored snapshot records
`"Last Modified": 500`; the returned record's `getPrior "Last Modified"`
is `undefined` even though that field was recorded, because classification
deleted the ignored fields from the enriched record's `lastValues` in
place.  (A non-ignored field's prior, `Name`, is still readable.) -/
theorem C9_prior_lost_counterexample :
    (resultsOf (pollOnce (mkChangeDetector "tableName" none)
        [⟨"r9", [("Last Modified", Json.num 1000), ("Name", Json.str "new"),
                 ("Meta", Json.str "\x7b\"lastValues\":\x7b\"Last Modified\":500,\"Name\":\"old\"\x7d\x7d")]⟩]
        2000)).map (fun e => (e.getPrior "Last Modified", e.getPrior "Name"))
      = [(none, some (Json.str "old"))]
    ∧ lookupF (lastValuesOf (ensureLastValues
          ((parseJson "\x7b\"lastValues\":\x7b\"Last Modified\":500,\"Name\":\"old\"\x7d\x7d").getD .null)))
        "Last Modified" = some (Json.num 500) := by
  decide

/-- C9 (amended): for every field that is not one of the ignored
bookkeeping fields, `getPrior` on a classified record returns exactly the
value recorded in the snapshot's `lastValues` (absent iff never recorded);
the ignored fields' priors are destroyed by classification's in-place
deletes. -/
theorem C9_getPrior_exact_outside_ignored (d : Detector) (e : Enriched) (f : String)
    (hf : f ∉ ignoredFields d) :
    ((hasFieldChangesM d e).2).getPrior f = lookupF (lastValuesOf e.meta) f
    ∧ (((hasFieldChangesM d e).2).getPrior f = none ↔ f ∉ keysF (lastValuesOf e.meta)) := by
  have hmeta := (hasFieldChangesM_proj d e).2.2.2.2
  have key : ((hasFieldChangesM d e).2).getPrior f = lookupF (lastValuesOf e.meta) f := by
    unfold Enriched.getPrior
    rw [hmeta]
    cases hm : e.meta with
    | obj kvs =>
      rw [lastValuesOf_setLastValues_obj, lookupF_deleteAll, if_neg hf]
    | null => rfl
    | bool b => rfl
    | num n => rfl
    | str s => rfl
    | arr xs => rfl
  refine ⟨key, ?_⟩
  rw [key, lookupF_eq_none_iff]

/-- C9 witness: a non-ignored field's prior survives classification. -/
theorem C9_getPrior_exact_outside_ignored_witness :
    ((hasFieldChangesM sampleDetector
        ⟨"r9", [("Name", Json.str "new")],
         .obj [("lastValues", .obj [("Name", Json.str "old")])], ["Name"], "tableName"⟩).2).getPrior "Name"
      = lookupF (lastValuesOf (Json.obj [("lastValues", .obj [("Name", Json.str "old")])])) "Name"
    ∧ (((hasFieldChangesM sampleDetector
        ⟨"r9", [("Name", Json.str "new")],
         .obj [("lastValues", .obj [("Name", Json.str "old")])], ["Name"], "tableName"⟩).2).getPrior "Name"
        = none
      ↔ "Name" ∉ keysF (lastValuesOf (Json.obj [("lastValues", .obj [("Name", Json.str "old")])]))) :=
  C9_getPrior_exact_outside_ignored sampleDetector _ "Name" (by decide)

/-- C8 (confirmed): a row whose meta field is absent or empty and that has
at least one non-excluded field present is classified as changed, and its
enriched record reports `didChange = true` for every field name — both
before and after the classification mutation. -/
theorem C8_first_sight (d : Detector) (r : Rec) (e : Enriched)
    (hmeta : lookupF r.fields d.metaFieldName = none
      ∨ lookupF r.fields d.metaFieldName = some (.str ""))
    (hsome : ∃ k, k ∉ ignoredFields d ∧ (lookupF r.fields k).isSome = true)
    (henr : enrichRecord d r = .ok e) :
    (hasFieldChangesM d e).1 = true
    ∧ (∀ f, e.didChange f = true)
    ∧ (∀ f, ((hasFieldChangesM d e).2).didChange f = true) := by
  have hfalsy : truthy (lookupF r.fields d.metaFieldName) = false := by
    rcases hmeta with hm | hm <;> rw [hm] <;> rfl
  have hgn : getNormalizedMeta d r = .ok (.obj [("lastValues", .obj [])]) := by
    unfold getNormalizedMeta
    rw [if_pos (by simp [hfalsy])]
  obtain ⟨hid, hfields, hgm, hlsv, -⟩ := enrichRecord_ok d r e henr
  rw [hgn] at hgm
  injection hgm with hgm
  have hmeta0 : e.meta = .obj [("lastValues", .obj [])] := hgm.symm
  have hlv : lastValuesOf e.meta = [] := by rw [hmeta0]; rfl
  have hempty : e.lastSetValues = [] := by rw [hlsv, hlv]; rfl
  obtain ⟨k, hk, hks⟩ := hsome
  refine ⟨?_, ?_, ?_⟩
  · rw [hasFieldChangesM_fst, hlv, deleteAll_nil]
    have : eqF (deleteAll e.fields (ignoredFields d)) [] = false := by
      apply eqF_false_of_ne _ _ k
      rw [lookupF_deleteAll, if_neg hk, hfields]
      cases hl : lookupF r.fields k with
      | none => rw [hl] at hks; exact absurd hks (by simp)
      | some v => simp [lookupF]
    rw [this]
    rfl
  · intro f
    unfold Enriched.didChange
    rw [hempty]
    rfl
  · intro f
    unfold Enriched.didChange
    rw [(hasFieldChangesM_proj d e).2.2.1, hempty]
    rfl

/-- C8 witness: a new row (no meta) with a `Name` field. -/
theorem C8_first_sight_witness :
    (hasFieldChangesM sampleDetector sampleEnriched).1 = true
    ∧ (∀ f, sampleEnriched.didChange f = true)
    ∧ (∀ f, ((hasFieldChangesM sampleDetector sampleEnriched).2).didChange f = true) :=
  C8_first_sight sampleDetector sampleRecord sampleEnriched
    (Or.inl (by decide)) ⟨"Name", by decide, by decide⟩ (by decide)

/-- C10 (confirmed): when a written-back row's existing meta parses to an
object, the newly serialized meta keeps every top-level key other than
`lastValues` bound to its previous value; only `lastValues` is replaced
(with the row's fields minus meta minus sensitive fields), and when a
last-processed field is configured that separate row field is set to the
current timestamp. -/
theorem C10_meta_keys_preserved (d : Detector) (now : Int) (e : Enriched) (u : RecUpdate)
    (s : String) (kvs : List (String × Json))
    (hlp : d.lastProcessedFieldName ≠ d.metaFieldName)
    (hs : lookupF e.fields d.metaFieldName = some (.str s))
    (hp : parseJson s = some (.obj kvs))
    (hb : buildUpdate d now e = .ok u) :
    ∃ kvs', lookupF u.fields d.metaFieldName = some (.str (printJson (.obj kvs')))
      ∧ (∀ k, k ≠ "lastValues" → lookupF kvs' k = lookupF kvs k)
      ∧ lookupF kvs' "lastValues"
          = some (.obj (deleteAll (deleteF e.fields d.metaFieldName) d.sensitiveFields))
      ∧ (d.lastProcessedFieldName ≠ "" →
          lookupF u.fields d.lastProcessedFieldName = some (.num now)) := by
  have hsne : s ≠ "" := by
    intro hEq
    rw [hEq] at hp
    rw [show parseJson "" = none from rfl] at hp
    exact absurd hp (by simp)
  have hgn : getNormalizedMeta d ⟨e.id, e.fields⟩ = .ok (ensureLastValues (.obj kvs)) := by
    unfold getNormalizedMeta
    show (if ¬ truthy (lookupF e.fields d.metaFieldName) = true then _ else _) = _
    rw [hs]
    rw [if_neg (by simp [truthy, hsne])]
    show (match parseJson s with
          | none => Except.error (RecordError.mk e.id (Cause.parseError s))
          | some meta => Except.ok (ensureLastValues meta)) = _
    rw [hp]
  obtain ⟨meta0, hg, -, hfields⟩ := buildUpdate_ok_elim d now e u hb
  rw [hgn] at hg
  injection hg with hg
  -- the normalized meta is an object whose non-`lastValues` keys are those of `kvs`
  obtain ⟨kvs₀, hkvs₀, hkeys⟩ :
      ∃ kvs₀, ensureLastValues (.obj kvs) = .obj kvs₀
        ∧ ∀ k, k ≠ "lastValues" → lookupF kvs₀ k = lookupF kvs k := by
    by_cases ht : truthy (lookupF kvs "lastValues") = true
    · refine ⟨kvs, ?_, fun k _ => rfl⟩
      show (if truthy (lookupF kvs "lastValues") = true then Json.obj kvs
            else Json.obj (setF kvs "lastValues" (Json.obj []))) = Json.obj kvs
      rw [if_pos ht]
    · refine ⟨setF kvs "lastValues" (.obj []), ?_, fun k hk => ?_⟩
      · show (if truthy (lookupF kvs "lastValues") = true then Json.obj kvs
              else Json.obj (setF kvs "lastValues" (Json.obj []))) = _
        rw [if_neg ht]
      · rw [lookupF_setF, if_neg hk]
  rw [hkvs₀] at hg
  refine ⟨setF kvs₀ "lastValues"
      (.obj (deleteAll (deleteF e.fields d.metaFieldName) d.sensitiveFields)), ?_, ?_, ?_, ?_⟩
  · rw [hfields, ← hg]
    by_cases hlpe : d.lastProcessedFieldName ≠ ""
    · rw [if_pos hlpe, lookupF_setF, if_neg (Ne.symm hlp)]
      simp [lookupF, setLastValues]
    · rw [if_neg hlpe]
      simp [lookupF, setLastValues]
  · intro k hk
    rw [lookupF_setF, if_neg hk]
    exact hkeys k hk
  · rw [lookupF_setF, if_pos rfl]
  · intro hlpe
    rw [hfields, if_pos hlpe, lookupF_setF, if_pos rfl]

/-- C10 witness: a meta with an extra top-level key `keep`. -/
theorem C10_meta_keys_preserved_witness :
    ∃ kvs', lookupF (RecUpdate.mk "rX"
        [("Meta", Json.str "\x7b\"keep\":1,\"lastValues\":\x7b\"Name\":\"b\"\x7d\x7d")]).fields
        sampleDetector.metaFieldName = some (.str (printJson (.obj kvs')))
      ∧ (∀ k, k ≠ "lastValues" →
          lookupF kvs' k
            = lookupF [("keep", Json.num 1), ("lastValues", Json.obj [("Name", Json.str "a")])] k)
      ∧ lookupF kvs' "lastValues"
          = some (.obj (deleteAll (deleteF
              [("Name", Json.str "b"),
               ("Meta", Json.str "\x7b\"keep\":1,\"lastValues\":\x7b\"Name\":\"a\"\x7d\x7d")]
              sampleDetector.metaFieldName) sampleDetector.sensitiveFields))
      ∧ (sampleDetector.lastProcessedFieldName ≠ "" →
          lookupF (RecUpdate.mk "rX"
            [("Meta", Json.str "\x7b\"keep\":1,\"lastValues\":\x7b\"Name\":\"b\"\x7d\x7d")]).fields
            sampleDetector.lastProcessedFieldName = some (.num 2000)) :=
  C10_meta_keys_preserved sampleDetector 2000
    ⟨"rX", [("Name", Json.str "b"),
            ("Meta", Json.str "\x7b\"keep\":1,\"lastValues\":\x7b\"Name\":\"a\"\x7d\x7d")],
     .null, [], "tableName"⟩
    ⟨"rX", [("Meta", Json.str "\x7b\"keep\":1,\"lastValues\":\x7b\"Name\":\"b\"\x7d\x7d")]⟩
    "\x7b\"keep\":1,\"lastValues\":\x7b\"Name\":\"a\"\x7d\x7d"
    [("keep", Json.num 1), ("lastValues", Json.obj [("Name", Json.str "a")])]
    (by decide) (by decide) (by decide) (by decide)

theorem mapMErr_error_concat (f : α → Except ε β) (pre : List α) (bad : α) (post : List α)
    (err : ε) (hpre : ∀ x ∈ pre, (f x).isOk = true) (hbad : f bad = .error err) :
    mapMErr f (pre ++ bad :: post) = .error err := by
  induction pre with
  | nil => simp [mapMErr, hbad]
  | cons x xs ih =>
    have hx := hpre x (by simp)
    cases hfx : f x with
    | error e =>
      rw [hfx] at hx
      exact absurd hx (by simp [Except.isOk, Except.toBool])
    | ok y =>
      simp only [List.cons_append, mapMErr, hfx, List.append_eq,
        ih (fun z hz => hpre z (by simp [hz]))]

/-- C3 counterexample: three fetched rows, the middle one with unparseable
meta text; the whole cycle rejects (carrying that row's id and the parse
cause) and the other two changed rows are not returned. -/
theorem C3_parse_error_aborts_batch_counterexample :
    pollOnce (mkChangeDetector "T" none)
        [⟨"r1", [("Last Modified", Json.num 1000), ("Name", Json.str "a")]⟩,
         ⟨"r2", [("Last Modified", Json.num 1100), ("Meta", Json.str "oops")]⟩,
         ⟨"r3", [("Last Modified", Json.num 1200), ("Name", Json.str "c")]⟩] 2000
      = .error ⟨"r2", .parseError "oops"⟩
    ∧ resultsOf (pollOnce (mkChangeDetector "T" none)
        [⟨"r1", [("Last Modified", Json.num 1000), ("Name", Json.str "a")]⟩,
         ⟨"r2", [("Last Modified", Json.num 1100), ("Meta", Json.str "oops")]⟩,
         ⟨"r3", [("Last Modified", Json.num 1200), ("Name", Json.str "c")]⟩] 2000) = [] := by
  decide

/-- C3 (amended): a fetched row whose meta text fails to parse makes the
whole cycle reject — `getModifiedRecords` maps `enrichRecord` over the
batch and the first parse failure propagates — with a record-scoped error
carrying that row's id and the parse cause; no rows are classified or
returned that cycle (the scheduler will still surface id and cause and
continue, see C5). -/
theorem C3_parse_error_failfast (d : Detector) (table : List Rec) (now : Int)
    (pre : List Rec) (bad : Rec) (post : List Rec) (s : String)
    (hsplit : table.filter (matchesFilter d (cutoffOf d)) = pre ++ bad :: post)
    (hpre : pre.all (fun r => (enrichRecord d r).isOk) = true)
    (hs : lookupF bad.fields d.metaFieldName = some (.str s))
    (hsne : s ≠ "")
    (hp : parseJson s = none) :
    pollOnce d table now = .error ⟨bad.id, .parseError s⟩ := by
  have hbad : enrichRecord d bad = .error ⟨bad.id, .parseError s⟩ := by
    have hgn : getNormalizedMeta d bad = .error ⟨bad.id, .parseError s⟩ := by
      unfold getNormalizedMeta
      rw [hs]
      rw [if_neg (by simp [truthy, hsne])]
      show (match parseJson s with
            | none => Except.error (RecordError.mk bad.id (Cause.parseError s))
            | some meta => Except.ok (ensureLastValues meta)) = _
      rw [hp]
    unfold enrichRecord
    rw [hgn]
    rfl
  have hpre' : ∀ x ∈ pre, (enrichRecord d x).isOk = true :=
    fun x hx => List.all_eq_true.mp hpre x hx
  have hgm : getModifiedRecords d table = .error ⟨bad.id, .parseError s⟩ := by
    unfold getModifiedRecords
    rw [hsplit]
    exact mapMErr_error_concat _ pre bad post _ hpre' hbad
  unfold pollOnce
  rw [hgm]

/-- C3 witness: the amended theorem applied at the counterexample's table. -/
theorem C3_parse_error_failfast_witness :
    pollOnce (mkChangeDetector "T" none)
        [⟨"r1", [("Last Modified", Json.num 1000), ("Name", Json.str "a")]⟩,
         ⟨"r2", [("Last Modified", Json.num 1100), ("Meta", Json.str "oops")]⟩,
         ⟨"r3", [("Last Modified", Json.num 1200), ("Name", Json.str "c")]⟩] 2000
      = .error ⟨"r2", .parseError "oops"⟩ :=
  C3_parse_error_failfast (mkChangeDetector "T" none)
    [⟨"r1", [("Last Modified", Json.num 1000), ("Name", Json.str "a")]⟩,
     ⟨"r2", [("Last Modified", Json.num 1100), ("Meta", Json.str "oops")]⟩,
     ⟨"r3", [("Last Modified", Json.num 1200), ("Name", Json.str "c")]⟩] 2000
    [⟨"r1", [("Last Modified", Json.num 1000), ("Name", Json.str "a")]⟩]
    ⟨"r2", [("Last Modified", Json.num 1100), ("Meta", Json.str "oops")]⟩
    [⟨"r3", [("Last Modified", Json.num 1200), ("Name", Json.str "c")]⟩]
    "oops" (by decide) (by decide) (by decide) (by decide) (by decide)

/-! ## Infrastructure for the no-op / idempotence claim (C7) -/

/-- The precondition on a remote row under which the JS code runs without a
type error: its meta field is falsy (absent/empty) or holds text parsing to
a JSON object.  (A meta parsing to a primitive crashes `hasFieldChanges` in
JS; the model is total, so the idempotence theorem assumes rows are
well-formed in this sense.) -/
def metaOk (d : Detector) (r : Rec) : Bool :=
  if truthy (lookupF r.fields d.metaFieldName) then
    match lookupF r.fields d.metaFieldName with
    | some (.str s) =>
      match parseJson s with
      | some (.obj _) => true
      | _ => false
    | _ => false
  else true

/-- One record's patch inside `applyUpdate` (merge of the update's fields). -/
def stepRec (r : Rec) (u : RecUpdate) : Rec :=
  if r.id = u.id then ⟨r.id, u.fields.foldl (fun fs kv => setF fs kv.1 kv.2) r.fields⟩
  else r

theorem lookupF_deleteF (fs : Fields) (k0 k : String) :
    lookupF (deleteF fs k0) k = if k = k0 then none else lookupF fs k := by
  have : deleteF fs k0 = fs.filter (fun p => decide (p.1 ≠ k0)) := rfl
  rw [this, lookupF_filterKey (fun s => decide (s ≠ k0))]
  by_cases hk : k = k0 <;> simp [hk]

theorem ensureLastValues_obj (kvs : List (String × Json)) :
    ∃ kvs', ensureLastValues (.obj kvs) = .obj kvs'
      ∧ truthy (lookupF kvs' "lastValues") = true := by
  by_cases ht : truthy (lookupF kvs "lastValues") = true
  · refine ⟨kvs, ?_, ht⟩
    show (if truthy (lookupF kvs "lastValues") = true then Json.obj kvs
          else Json.obj (setF kvs "lastValues" (Json.obj []))) = Json.obj kvs
    rw [if_pos ht]
  · refine ⟨setF kvs "lastValues" (.obj []), ?_, ?_⟩
    · show (if truthy (lookupF kvs "lastValues") = true then Json.obj kvs
            else Json.obj (setF kvs "lastValues" (Json.obj []))) = _
      rw [if_neg ht]
    · rw [lookupF_setF, if_pos rfl]
      rfl

theorem metaOk_getNormalizedMeta (d : Detector) (r : Rec) (h : metaOk d r = true) :
    ∃ kvs, getNormalizedMeta d r = .ok (.obj kvs)
      ∧ truthy (lookupF kvs "lastValues") = true := by
  unfold metaOk at h
  split at h
  · split at h
    next s heq =>
      split at h
      next kvs heq2 =>
        obtain ⟨kvs', hens, htr⟩ := ensureLastValues_obj kvs
        refine ⟨kvs', ?_, htr⟩
        unfold getNormalizedMeta
        rw [heq]
        rw [if_neg (by rw [← heq]; simp_all)]
        show (match parseJson s with
              | none => Except.error (RecordError.mk r.id (Cause.parseError s))
              | some meta => Except.ok (ensureLastValues meta)) = _
        rw [heq2]
        show Except.ok (ensureLastValues (Json.obj kvs)) = _
        rw [hens]
      next hmm =>
        exact absurd h (by simp)
    next hne =>
      exact absurd h (by simp)
  · refine ⟨[("lastValues", .obj [])], ?_, by rfl⟩
    unfold getNormalizedMeta
    next ht =>
      rw [if_pos (by simpa using ht)]

theorem getNormalizedMeta_ok_congr (d : Detector) (r₁ r₂ : Rec) (m : Json)
    (hfld : r₁.fields = r₂.fields) (hok : getNormalizedMeta d r₁ = .ok m) :
    getNormalizedMeta d r₂ = .ok m := by
  unfold getNormalizedMeta at hok ⊢
  rw [← hfld]
  by_cases ht : truthy (lookupF r₁.fields d.metaFieldName) = true
  · rw [if_neg (by simpa using ht)] at hok ⊢
    simp only [] at hok ⊢
    cases hp : parseJson (match lookupF r₁.fields d.metaFieldName with
        | some v => jsToString v
        | none => "") with
    | none =>
      rw [hp] at hok
      exact absurd hok (by simp)
    | some j =>
      rw [hp] at hok
      simp only [] at hok ⊢
      exact hok
  · rw [if_pos (by simpa using ht)] at hok ⊢
    exact hok

theorem updateLastModified_config (d : Detector) (es : List Enriched) :
    (updateLastModified d es).tableName = d.tableName
    ∧ (updateLastModified d es).metaFieldName = d.metaFieldName
    ∧ (updateLastModified d es).lastModifiedFieldName = d.lastModifiedFieldName
    ∧ (updateLastModified d es).lastProcessedFieldName = d.lastProcessedFieldName
    ∧ (updateLastModified d es).sensitiveFields = d.sensitiveFields
    ∧ (updateLastModified d es).autoUpdateEnabled = d.autoUpdateEnabled := by
  unfold updateLastModified
  split <;> exact ⟨rfl, rfl, rfl, rfl, rfl, rfl⟩

theorem ignoredFields_congr (d₁ d₂ : Detector)
    (h1 : d₁.lastModifiedFieldName = d₂.lastModifiedFieldName)
    (h2 : d₁.metaFieldName = d₂.metaFieldName)
    (h3 : d₁.sensitiveFields = d₂.sensitiveFields)
    (h4 : d₁.lastProcessedFieldName = d₂.lastProcessedFieldName) :
    ignoredFields d₁ = ignoredFields d₂ := by
  unfold ignoredFields
  rw [h1, h2, h3, h4]

theorem getNormalizedMeta_detector_congr (d₁ d₂ : Detector) (r : Rec)
    (h : d₁.metaFieldName = d₂.metaFieldName) :
    getNormalizedMeta d₁ r = getNormalizedMeta d₂ r := by
  unfold getNormalizedMeta
  rw [h]

theorem enrichRecord_detector_congr (d₁ d₂ : Detector) (r : Rec)
    (h1 : d₁.metaFieldName = d₂.metaFieldName)
    (h2 : d₁.tableName = d₂.tableName) :
    enrichRecord d₁ r = enrichRecord d₂ r := by
  unfold enrichRecord
  rw [getNormalizedMeta_detector_congr d₁ d₂ r h1, h2]

theorem hasFieldChangesM_detector_congr (d₁ d₂ : Detector) (e : Enriched)
    (h : ignoredFields d₁ = ignoredFields d₂) :
    hasFieldChangesM d₁ e = hasFieldChangesM d₂ e := by
  unfold hasFieldChangesM
  rw [h]

theorem mapMErr_ok_of_all (f : α → Except ε β) (P : β → Prop) :
    ∀ l : List α, (∀ x ∈ l, ∃ y, f x = .ok y ∧ P y) →
      ∃ ys, mapMErr f l = .ok ys ∧ ∀ y ∈ ys, P y := by
  intro l
  induction l with
  | nil => intro _; exact ⟨[], rfl, by simp⟩
  | cons x xs ih =>
    intro hall
    obtain ⟨y, hy, hPy⟩ := hall x (by simp)
    obtain ⟨ys, hys, hPys⟩ := ih (fun z hz => hall z (by simp [hz]))
    refine ⟨y :: ys, ?_, ?_⟩
    · simp only [mapMErr, hy, hys]
    · intro z hz
      rcases List.mem_cons.mp hz with rfl | hz'
      · exact hPy
      · exact hPys z hz'

/-- A cycle in which every examined record classifies as unchanged returns
the empty set, issues no update call, and leaves the instance state and
the remote table untouched. -/
theorem pollOnce_no_changes (d : Detector) (table : List Rec) (now : Int)
    (toExamine : List Enriched)
    (hg : getModifiedRecords d table = .ok toExamine)
    (hall : ∀ e ∈ toExamine, (hasFieldChangesM d e).1 = false) :
    pollOnce d table now = .ok ⟨[], d, table, []⟩ := by
  unfold pollOnce
  rw [hg]
  have hfil : (toExamine.map (hasFieldChangesM d)).filter (fun p => p.1) = [] := by
    rw [List.filter_eq_nil]
    intro p hp
    obtain ⟨e, he, rfl⟩ := List.mem_map.mp hp
    simp [hall e he]
  simp [hfil]

theorem foldl_applyBatch_join (bs : List (List RecUpdate)) :
    ∀ t : List Rec, bs.foldl applyBatch t = bs.join.foldl applyUpdate t := by
  induction bs with
  | nil => intro t; rfl
  | cons b bs ih =>
    intro t
    simp only [List.foldl, List.join_cons, List.foldl_append]
    exact ih _

theorem chunkAux_join (n : Nat) (hn : 1 ≤ n) {α : Type} :
    ∀ (fuel : Nat) (l : List α), l.length ≤ fuel → (chunkAux n fuel l).join = l := by
  intro fuel
  induction fuel with
  | zero =>
    intro l hl
    rw [show l = [] from by cases l with
      | nil => rfl
      | cons a l' => simp at hl]
    rfl
  | succ f ih =>
    intro l hl
    cases l with
    | nil => rfl
    | cons a l' =>
      show ((a :: l').take n :: chunkAux n f ((a :: l').drop n)).join = a :: l'
      rw [show ((a :: l').take n :: chunkAux n f ((a :: l').drop n)).join
            = (a :: l').take n ++ (chunkAux n f ((a :: l').drop n)).join from rfl]
      rw [ih ((a :: l').drop n) (by simp at hl ⊢; omega)]
      exact List.take_append_drop n (a :: l')

theorem chunkList_join {α : Type} (n : Nat) (hn : 1 ≤ n) (l : List α) :
    (chunkList n l).join = l :=
  chunkAux_join n hn l.length l le_rfl

theorem applyUpdate_eq_map (t : List Rec) (u : RecUpdate) :
    applyUpdate t u = t.map (fun r => stepRec r u) := rfl

theorem foldl_applyUpdate_map (us : List RecUpdate) :
    ∀ t : List Rec, us.foldl applyUpdate t = t.map (fun r => us.foldl stepRec r) := by
  induction us with
  | nil => intro t; simp
  | cons u us ih =>
    intro t
    simp only [List.foldl, ih, applyUpdate_eq_map, List.map_map]
    rfl

theorem foldl_stepRec_skip (r : Rec) :
    ∀ us : List RecUpdate, (∀ u ∈ us, u.id ≠ r.id) → us.foldl stepRec r = r := by
  intro us
  induction us with
  | nil => intro _; rfl
  | cons u us ih =>
    intro h
    have hu : u.id ≠ r.id := h u (by simp)
    simp only [List.foldl]
    rw [show stepRec r u = r from by unfold stepRec; rw [if_neg (fun hEq => hu hEq.symm)]]
    exact ih (fun z hz => h z (by simp [hz]))

theorem foldl_stepRec_hit (r : Rec) (u : RecUpdate) :
    ∀ us : List RecUpdate, (us.map RecUpdate.id).Nodup → u ∈ us → u.id = r.id →
      us.foldl stepRec r
        = ⟨r.id, u.fields.foldl (fun fs kv => setF fs kv.1 kv.2) r.fields⟩ := by
  intro us
  induction us with
  | nil => intro _ hu _; exact absurd hu (by simp)
  | cons u₀ us ih =>
    intro hnd hu hid
    rcases List.mem_cons.mp hu with rfl | hu'
    · simp only [List.foldl]
      rw [show stepRec r u = ⟨r.id, u.fields.foldl (fun fs kv => setF fs kv.1 kv.2) r.fields⟩
            from by unfold stepRec; rw [if_pos hid.symm]]
      simp only [List.map_cons, List.nodup_cons] at hnd
      refine foldl_stepRec_skip _ us (fun z hz hEq => hnd.1 ?_)
      have hz2 : z.id = u.id := by
        have hzr : z.id = r.id := hEq
        rw [hzr, hid]
      rw [← hz2]
      exact List.mem_map_of_mem _ hz
    · have hne : u₀.id ≠ r.id := by
        intro hEq
        simp only [List.map_cons, List.nodup_cons] at hnd
        apply hnd.1
        rw [hEq, ← hid]
        exact List.mem_map_of_mem _ hu'
      simp only [List.foldl]
      rw [show stepRec r u₀ = r from by unfold stepRec; rw [if_neg (fun hEq => hne hEq.symm)]]
      exact ih (by simp only [List.map_cons, List.nodup_cons] at hnd; exact hnd.2) hu' hid

theorem forall₂_map_eq {α β γ : Type} (rel : α → β → Prop) (f : α → γ) (g : β → γ)
    (hfg : ∀ x y, rel x y → f x = g y) :
    ∀ (l₁ : List α) (l₂ : List β), List.Forall₂ rel l₁ l₂ → l₁.map f = l₂.map g := by
  intro l₁ l₂ h
  induction h with
  | nil => rfl
  | cons hxy _ ih => simp only [List.map_cons, ih, hfg _ _ hxy]

theorem mem_ignored_meta (d : Detector) : d.metaFieldName ∈ ignoredFields d := by
  simp [ignoredFields]

theorem mem_ignored_sensitive (d : Detector) (s : String) (hs : s ∈ d.sensitiveFields) :
    s ∈ ignoredFields d := by
  simp [ignoredFields, hs]

theorem mem_ignored_lastProcessed (d : Detector) (h : d.lastProcessedFieldName ≠ "") :
    d.lastProcessedFieldName ∈ ignoredFields d := by
  simp [ignoredFields, h]

theorem mapMErr_ok_mem2 (f : α → Except ε β) (l : List α) (ys : List β)
    (h : mapMErr f l = .ok ys) : ∀ x ∈ l, ∃ y ∈ ys, f x = .ok y := by
  have h2 := (mapMErr_ok_iff f l ys).mp h
  clear h
  induction h2 with
  | nil => intro x hx; exact absurd hx (by simp)
  | cons hxy _ ih =>
    intro x hx
    rcases List.mem_cons.mp hx with rfl | hx'
    · exact ⟨_, by simp, hxy⟩
    · obtain ⟨y', hy', hfy'⟩ := ih x hx'
      exact ⟨y', by simp [hy'], hfy'⟩

theorem setF_singleton_ne (k₁ : String) (v₁ : Json) (k₂ : String) (v₂ : Json)
    (h : k₁ ≠ k₂) : setF [(k₁, v₁)] k₂ v₂ = [(k₁, v₁), (k₂, v₂)] := by
  unfold setF
  rw [if_neg (by
    rw [show lookupF [(k₁, v₁)] k₂ = none from by
      unfold lookupF
      rw [if_neg h]
      rfl]
    simp)]
  rfl

/-- The record produced by applying a staged update back to its base row
parses back to the staged snapshot and classifies as unchanged. -/
theorem patched_unchanged (d : Detector) (r : Rec) (e : Enriched) (u : RecUpdate) (now : Int)
    (hlp : d.lastProcessedFieldName ≠ d.metaFieldName)
    (hid : e.id = r.id) (hfe : e.fields = r.fields)
    (hmok : metaOk d r = true)
    (hbu : buildUpdate d now e = .ok u) :
    ∃ e₂, enrichRecord d ⟨r.id, u.fields.foldl (fun fs kv => setF fs kv.1 kv.2) r.fields⟩ = .ok e₂
      ∧ (hasFieldChangesM d e₂).1 = false := by
  obtain ⟨meta0, hg0, -, huf⟩ := buildUpdate_ok_elim d now e u hbu
  have hrec_eq : (⟨e.id, e.fields⟩ : Rec) = r := by
    rw [hid, hfe]
  rw [hrec_eq] at hg0
  obtain ⟨kvs₀, hgobj, -⟩ := metaOk_getNormalizedMeta d r hmok
  have hm0 : meta0 = .obj kvs₀ := Except.ok.inj (hg0.symm.trans hgobj)
  -- abbreviations
  have hlv : deleteAll (deleteF e.fields d.metaFieldName) d.sensitiveFields
      = deleteAll (deleteF r.fields d.metaFieldName) d.sensitiveFields := by rw [hfe]
  rw [hm0] at huf
  -- the new meta value
  have hmdef : setLastValues (.obj kvs₀) (deleteAll (deleteF e.fields d.metaFieldName) d.sensitiveFields)
      = .obj (setF kvs₀ "lastValues"
          (.obj (deleteAll (deleteF r.fields d.metaFieldName) d.sensitiveFields))) := by
    rw [hlv]
    rfl
  rw [hmdef] at huf
  -- the patched fields, case split on the last-processed configuration
  have hfields :
      lookupF (u.fields.foldl (fun fs kv => setF fs kv.1 kv.2) r.fields) d.metaFieldName
        = some (.str (printJson (.obj (setF kvs₀ "lastValues"
            (.obj (deleteAll (deleteF r.fields d.metaFieldName) d.sensitiveFields))))))
      ∧ ∀ k, k ∉ ignoredFields d →
          lookupF (u.fields.foldl (fun fs kv => setF fs kv.1 kv.2) r.fields) k
            = lookupF r.fields k := by
    by_cases hlpe : d.lastProcessedFieldName ≠ ""
    · rw [if_pos hlpe] at huf
      have husingle : u.fields
          = [(d.metaFieldName, Json.str (printJson (.obj (setF kvs₀ "lastValues"
              (.obj (deleteAll (deleteF r.fields d.metaFieldName) d.sensitiveFields)))))),
             (d.lastProcessedFieldName, Json.num now)] := by
        rw [huf, setF_singleton_ne _ _ _ _ (Ne.symm hlp)]
      rw [husingle]
      constructor
      · show lookupF (setF (setF r.fields d.metaFieldName _) d.lastProcessedFieldName _)
            d.metaFieldName = _
        rw [lookupF_setF, if_neg (Ne.symm hlp), lookupF_setF, if_pos rfl]
      · intro k hk
        show lookupF (setF (setF r.fields d.metaFieldName _) d.lastProcessedFieldName _) k = _
        rw [lookupF_setF,
          if_neg (fun hEq => hk (by rw [hEq]; exact mem_ignored_lastProcessed d hlpe)),
          lookupF_setF, if_neg (fun hEq => hk (by rw [hEq]; exact mem_ignored_meta d))]
    · rw [if_neg hlpe] at huf
      rw [huf]
      constructor
      · show lookupF (setF r.fields d.metaFieldName _) d.metaFieldName = _
        rw [lookupF_setF, if_pos rfl]
      · intro k hk
        show lookupF (setF r.fields d.metaFieldName _) k = _
        rw [lookupF_setF, if_neg (fun hEq => hk (by rw [hEq]; exact mem_ignored_meta d))]
  -- enrichment of the patched record
  have hgn : getNormalizedMeta d ⟨r.id, u.fields.foldl (fun fs kv => setF fs kv.1 kv.2) r.fields⟩
      = .ok (.obj (setF kvs₀ "lastValues"
          (.obj (deleteAll (deleteF r.fields d.metaFieldName) d.sensitiveFields)))) := by
    unfold getNormalizedMeta
    rw [show (⟨r.id, u.fields.foldl (fun fs kv => setF fs kv.1 kv.2) r.fields⟩ : Rec).fields
        = u.fields.foldl (fun fs kv => setF fs kv.1 kv.2) r.fields from rfl]
    rw [hfields.1]
    rw [if_neg (by simp [truthy, printJson_ne_empty])]
    show (match parseJson (printJson (.obj (setF kvs₀ "lastValues"
            (.obj (deleteAll (deleteF r.fields d.metaFieldName) d.sensitiveFields))))) with
          | none => Except.error _
          | some meta => Except.ok (ensureLastValues meta)) = _
    rw [parseJson_printJson]
    show Except.ok (ensureLastValues (.obj (setF kvs₀ "lastValues"
        (.obj (deleteAll (deleteF r.fields d.metaFieldName) d.sensitiveFields))))) = _
    have : ensureLastValues (.obj (setF kvs₀ "lastValues"
        (.obj (deleteAll (deleteF r.fields d.metaFieldName) d.sensitiveFields))))
        = .obj (setF kvs₀ "lastValues"
            (.obj (deleteAll (deleteF r.fields d.metaFieldName) d.sensitiveFields))) := by
      show (if truthy (lookupF (setF kvs₀ "lastValues"
              (.obj (deleteAll (deleteF r.fields d.metaFieldName) d.sensitiveFields))) "lastValues") = true
            then _ else _) = _
      rw [if_pos (by rw [lookupF_setF, if_pos rfl]; rfl)]
    rw [this]
  refine ⟨_, by unfold enrichRecord; rw [hgn]; rfl, ?_⟩
  rw [hasFieldChangesM_fst]
  have hlvm : lastValuesOf (.obj (setF kvs₀ "lastValues"
      (.obj (deleteAll (deleteF r.fields d.metaFieldName) d.sensitiveFields))))
      = deleteAll (deleteF r.fields d.metaFieldName) d.sensitiveFields := by
    have := lastValuesOf_setLastValues_obj kvs₀
      (deleteAll (deleteF r.fields d.metaFieldName) d.sensitiveFields)
    exact this
  show (!(eqF (deleteAll (u.fields.foldl (fun fs kv => setF fs kv.1 kv.2) r.fields)
        (ignoredFields d))
      (deleteAll (lastValuesOf (.obj (setF kvs₀ "lastValues"
        (.obj (deleteAll (deleteF r.fields d.metaFieldName) d.sensitiveFields)))))
        (ignoredFields d)))) = false
  rw [hlvm]
  have heq : eqF (deleteAll (u.fields.foldl (fun fs kv => setF fs kv.1 kv.2) r.fields)
        (ignoredFields d))
      (deleteAll (deleteAll (deleteF r.fields d.metaFieldName) d.sensitiveFields)
        (ignoredFields d)) = true := by
    rw [eqF_eq_true_iff]
    intro k
    rw [lookupF_deleteAll, lookupF_deleteAll]
    by_cases hk : k ∈ ignoredFields d
    · simp [hk]
    · rw [if_neg hk, if_neg hk, hfields.2 k hk, lookupF_deleteAll,
        if_neg (fun hks => hk (mem_ignored_sensitive d k hks)), lookupF_deleteF,
        if_neg (fun hEq => hk (by rw [hEq]; exact mem_ignored_meta d))]
  rw [heq]
  rfl

theorem matchesFilter_detector_congr (d₁ d₂ : Detector) (c : Int) (r : Rec)
    (h : d₁.lastModifiedFieldName = d₂.lastModifiedFieldName) :
    matchesFilter d₁ c r = matchesFilter d₂ c r := by
  unfold matchesFilter
  rw [h]

/-- After a cycle whose write-back staged `updates`, every row of the
patched table that passes a (nonnegative-cutoff) fetch filter enriches
successfully and classifies as unchanged. -/
theorem second_cycle_row_unchanged (d : Detector) (table : List Rec) (now : Int)
    (toExamine : List Enriched) (updates : List RecUpdate)
    (hfresh : d.lastModified = 0)
    (hlp : d.lastProcessedFieldName ≠ d.metaFieldName)
    (hnodup : (table.map Rec.id).Nodup)
    (hmeta : ∀ r ∈ table, metaOk d r = true)
    (hg : getModifiedRecords d table = .ok toExamine)
    (hmup : mapMErr (buildUpdate d now)
        (((toExamine.map (hasFieldChangesM d)).filter (fun p => p.1)).map (fun p => p.2))
      = .ok updates)
    (hnodU : (updates.map RecUpdate.id).Nodup)
    (r : Rec) (hr : r ∈ table) (c₂ : Int) (hc₂ : 0 ≤ c₂)
    (hmatch : matchesFilter d c₂ (updates.foldl stepRec r) = true) :
    ∃ e₂, enrichRecord d (updates.foldl stepRec r) = .ok e₂
      ∧ (hasFieldChangesM d e₂).1 = false := by
  have hg' : mapMErr (enrichRecord d) (table.filter (matchesFilter d (cutoffOf d)))
      = .ok toExamine := hg
  by_cases hin : r.id ∈ updates.map RecUpdate.id
  · obtain ⟨u, hu, huid⟩ := List.mem_map.mp hin
    rw [foldl_stepRec_hit r u updates hnodU hu huid]
    obtain ⟨e, he, hbu⟩ := mapMErr_ok_mem _ _ _ hmup u hu
    obtain ⟨p, hp, rfl⟩ := List.mem_map.mp he
    obtain ⟨e₀, he₀, rfl⟩ := List.mem_map.mp (List.mem_of_mem_filter hp)
    obtain ⟨hpid, hpfields, -, -, -⟩ := hasFieldChangesM_proj d e₀
    obtain ⟨r₀, hr₀, henr₀⟩ := mapMErr_ok_mem _ _ _ hg' e₀ he₀
    obtain ⟨hid₀, hfld₀, -, -, -⟩ := enrichRecord_ok d r₀ e₀ henr₀
    obtain ⟨m0, -, huid', -⟩ := buildUpdate_ok_elim d now _ u hbu
    have hidEq : r₀.id = r.id := by
      rw [← hid₀, ← hpid, ← huid']
      exact huid
    have hr₀t : r₀ ∈ table := List.mem_of_mem_filter hr₀
    have hreq : r₀ = r := List.inj_on_of_nodup_map hnodup hr₀t hr hidEq
    have hid2 : ((hasFieldChangesM d e₀).2).id = r.id := by rw [hpid, hid₀, hreq]
    have hfe2 : ((hasFieldChangesM d e₀).2).fields = r.fields := by rw [hpfields, hfld₀, hreq]
    exact patched_unchanged d r _ u now hlp hid2 hfe2 (hmeta r hr) hbu
  · have hskip : updates.foldl stepRec r = r :=
      foldl_stepRec_skip r updates (fun u hu hEq =>
        hin (by rw [← hEq]; exact List.mem_map_of_mem RecUpdate.id hu))
    rw [hskip] at hmatch ⊢
    have hcut : cutoffOf d = 0 := by
      unfold cutoffOf
      rw [hfresh]
      decide
    have hmatch₁ : matchesFilter d (cutoffOf d) r = true := by
      unfold matchesFilter at hmatch ⊢
      cases hl : lookupF r.fields d.lastModifiedFieldName with
      | none => rw [hl] at hmatch; exact absurd hmatch (by simp)
      | some v =>
        rw [hl] at hmatch
        cases v with
        | num t =>
          have ht : c₂ < t := by simpa using hmatch
          rw [hcut]
          simpa using lt_of_le_of_lt hc₂ ht
        | null => exact absurd hmatch (by simp)
        | bool b => exact absurd hmatch (by simp)
        | str s => exact absurd hmatch (by simp)
        | arr xs => exact absurd hmatch (by simp)
        | obj kvs => exact absurd hmatch (by simp)
    obtain ⟨e₀, he₀, henr₀⟩ := mapMErr_ok_mem2 _ _ _ hg' r
      (List.mem_filter.mpr ⟨hr, hmatch₁⟩)
    refine ⟨e₀, henr₀, ?_⟩
    cases hv : (hasFieldChangesM d e₀).1 with
    | false => rfl
    | true =>
      exfalso
      have hpmem : hasFieldChangesM d e₀
          ∈ (toExamine.map (hasFieldChangesM d)).filter (fun p => p.1) :=
        List.mem_filter.mpr ⟨List.mem_map_of_mem _ he₀, by rw [hv]⟩
      obtain ⟨u', hu', hbu'⟩ := mapMErr_ok_mem2 _ _ _ hmup _
        (List.mem_map_of_mem _ hpmem)
      obtain ⟨m0, -, huid', -⟩ := buildUpdate_ok_elim d now _ u' hbu'
      obtain ⟨hpid, -, -, -, -⟩ := hasFieldChangesM_proj d e₀
      obtain ⟨hid₀, -, -, -, -⟩ := enrichRecord_ok d r e₀ henr₀
      apply hin
      rw [show r.id = u'.id from by rw [huid', hpid, hid₀]]
      exact List.mem_map_of_mem RecUpdate.id hu'

/-- After a successful first cycle of a freshly constructed instance, a
second cycle against the resulting (otherwise untouched) remote table
fetches only rows whose fields match their freshly stored snapshots, so it
reports nothing, writes nothing and changes nothing. -/
theorem pollOnce_idempotent_after_first (d : Detector) (table : List Rec)
    (now now₂ : Int) (o : PollOutcome)
    (hfresh : d.lastModified = 0)
    (hauto : d.autoUpdateEnabled = true)
    (hlp : d.lastProcessedFieldName ≠ d.metaFieldName)
    (hnodup : (table.map Rec.id).Nodup)
    (hmeta : ∀ r ∈ table, metaOk d r = true)
    (h1 : pollOnce d table now = .ok o) :
    pollOnce o.detector o.table now₂ = .ok ⟨[], o.detector, o.table, []⟩ := by
  obtain ⟨toExamine, hg, hcase⟩ := pollOnce_ok_elim d table now o h1
  rcases hcase with ⟨hnil, ho⟩ | ⟨hne, bt, hup, ho⟩
  · have hdet : o.detector = d := by rw [ho]
    have htab : o.table = table := by rw [ho]
    rw [hdet, htab]
    apply pollOnce_no_changes d table now₂ toExamine hg
    intro e he
    have hfilnil : (toExamine.map (hasFieldChangesM d)).filter (fun p => p.1) = [] :=
      List.map_eq_nil.mp hnil
    have hnot := List.filter_eq_nil.mp hfilnil (hasFieldChangesM d e)
      (List.mem_map_of_mem _ he)
    simpa using hnot
  · rw [if_pos hauto] at hup
    obtain ⟨updates, hmup, hb1, hb2⟩ := updateRecords_ok_elim d now table _ bt hup hne
    have hdet : o.detector
        = updateLastModified d ((toExamine.map (hasFieldChangesM d)).map (fun p => p.2)) := by
      rw [ho]
    have htab : o.table = bt.2 := by rw [ho]
    have htab2 : bt.2 = table.map (fun r => updates.foldl stepRec r) := by
      rw [hb2, foldl_applyBatch_join,
        chunkList_join UPDATE_BATCH_SIZE (by decide) updates, foldl_applyUpdate_map]
    obtain ⟨hcf1, hcf2, hcf3, hcf4, hcf5, hcf6⟩ :=
      updateLastModified_config d ((toExamine.map (hasFieldChangesM d)).map (fun p => p.2))
    have hg' : mapMErr (enrichRecord d) (table.filter (matchesFilter d (cutoffOf d)))
        = .ok toExamine := hg
    have hids1 : (table.filter (matchesFilter d (cutoffOf d))).map Rec.id
        = toExamine.map Enriched.id :=
      forall₂_map_eq _ Rec.id Enriched.id
        (fun r e h => ((enrichRecord_ok d r e h).1).symm) _ _
        ((mapMErr_ok_iff (enrichRecord d) _ _).mp hg')
    have hnodE : (toExamine.map Enriched.id).Nodup := by
      rw [← hids1]
      exact List.Nodup.sublist ((List.filter_sublist table).map Rec.id) hnodup
    have hsub : List.Sublist
        ((((toExamine.map (hasFieldChangesM d)).filter (fun p => p.1)).map
            (fun p => p.2)).map Enriched.id)
        (((toExamine.map (hasFieldChangesM d)).map (fun p => p.2)).map Enriched.id) := by
      rw [List.map_map, List.map_map]
      exact (List.filter_sublist _).map _
    have heqm : ((toExamine.map (hasFieldChangesM d)).map (fun p => p.2)).map Enriched.id
        = toExamine.map Enriched.id := by
      rw [List.map_map, List.map_map]
      apply List.map_congr_left
      intro e he
      exact (hasFieldChangesM_proj d e).1
    have hnodCh : (((((toExamine.map (hasFieldChangesM d)).filter (fun p => p.1)).map
        (fun p => p.2)).map Enriched.id)).Nodup := by
      apply List.Nodup.sublist hsub
      rw [heqm]
      exact hnodE
    have hidsU : (((toExamine.map (hasFieldChangesM d)).filter (fun p => p.1)).map
            (fun p => p.2)).map Enriched.id
        = updates.map RecUpdate.id :=
      forall₂_map_eq _ Enriched.id RecUpdate.id
        (fun e u h => by
          obtain ⟨m0, -, huid, -⟩ := buildUpdate_ok_elim d now e u h
          exact huid.symm) _ _
        ((mapMErr_ok_iff (buildUpdate d now) _ _).mp hmup)
    have hnodU : (updates.map RecUpdate.id).Nodup := by
      rw [← hidsU]
      exact hnodCh
    have hall₂ : ∀ r' ∈ bt.2.filter (matchesFilter
          (updateLastModified d ((toExamine.map (hasFieldChangesM d)).map (fun p => p.2)))
          (cutoffOf (updateLastModified d
            ((toExamine.map (hasFieldChangesM d)).map (fun p => p.2))))),
        ∃ e₂, enrichRecord (updateLastModified d
            ((toExamine.map (hasFieldChangesM d)).map (fun p => p.2))) r' = .ok e₂
          ∧ (hasFieldChangesM (updateLastModified d
              ((toExamine.map (hasFieldChangesM d)).map (fun p => p.2))) e₂).1 = false := by
      intro r' hr'
      obtain ⟨hrmem, hrmatch⟩ := List.mem_filter.mp hr'
      rw [htab2] at hrmem
      obtain ⟨r, hr, rfl⟩ := List.mem_map.mp hrmem
      rw [matchesFilter_detector_congr _ d _ _ hcf3] at hrmatch
      obtain ⟨e₂, henr, hv⟩ := second_cycle_row_unchanged d table now toExamine updates
        hfresh hlp hnodup hmeta hg hmup hnodU r hr _ (le_max_right _ _) hrmatch
      refine ⟨e₂, ?_, ?_⟩
      · rw [enrichRecord_detector_congr _ d _ hcf2 hcf1]
        exact henr
      · rw [hasFieldChangesM_detector_congr _ d e₂
          (ignoredFields_congr _ d hcf3 hcf2 hcf5 hcf4)]
        exact hv
    obtain ⟨tx₂, hgx, hallx⟩ := mapMErr_ok_of_all
      (enrichRecord (updateLastModified d
        ((toExamine.map (hasFieldChangesM d)).map (fun p => p.2))))
      (fun e₂ => (hasFieldChangesM (updateLastModified d
        ((toExamine.map (hasFieldChangesM d)).map (fun p => p.2))) e₂).1 = false)
      (bt.2.filter (matchesFilter
        (updateLastModified d ((toExamine.map (hasFieldChangesM d)).map (fun p => p.2)))
        (cutoffOf (updateLastModified d
          ((toExamine.map (hasFieldChangesM d)).map (fun p => p.2))))))
      hall₂
    rw [hdet, htab]
    exact pollOnce_no_changes _ bt.2 now₂ tx₂ hgx hallx

/-- C7 (confirmed): a cycle in which no fetched row has field changes
returns the empty set, issues no update call, and leaves the instance and
the remote table untouched; and for a freshly constructed instance (epoch
watermark — the only state a "first" cycle can run from), a distinct-id,
well-formed-meta table with a sane configuration, any pollOnce call after
a successful first cycle, against the remote state that cycle left behind,
returns the empty set and again changes nothing — so every later call
repeats it. -/
theorem C7_noop_and_idempotent (d : Detector) (table : List Rec)
    (now now₂ : Int) (o : PollOutcome)
    (hfresh : d.lastModified = 0)
    (hauto : d.autoUpdateEnabled = true)
    (hlp : d.lastProcessedFieldName ≠ d.metaFieldName)
    (hnodup : (table.map Rec.id).Nodup)
    (hmeta : ∀ r ∈ table, metaOk d r = true)
    (h1 : pollOnce d table now = .ok o) :
    (∀ (d₀ : Detector) (t : List Rec) (n : Int) (tx : List Enriched),
        getModifiedRecords d₀ t = .ok tx →
        (∀ e ∈ tx, (hasFieldChangesM d₀ e).1 = false) →
        pollOnce d₀ t n = .ok ⟨[], d₀, t, []⟩)
    ∧ pollOnce o.detector o.table now₂ = .ok ⟨[], o.detector, o.table, []⟩ :=
  ⟨fun d₀ t n tx hg hall => pollOnce_no_changes d₀ t n tx hg hall,
   pollOnce_idempotent_after_first d table now now₂ o hfresh hauto hlp hnodup hmeta h1⟩

/-- The outcome of the first cycle in the test scenario: the new row is
reported, its snapshot is written back, the watermark advances to 1000. -/
def sampleOutcome : PollOutcome :=
  ⟨[sampleEnriched],
   { sampleDetector with lastModified := 1000 },
   sampleBt.2, sampleBt.1⟩

/-- C7 witness: in the repository test's scenario the cycle after the
first successful one reports nothing and leaves everything unchanged. -/
theorem C7_noop_and_idempotent_witness :
    pollOnce sampleOutcome.detector sampleOutcome.table 9000
      = .ok ⟨[], sampleOutcome.detector, sampleOutcome.table, []⟩ :=
  (C7_noop_and_idempotent sampleDetector [sampleRecord] 2000 9000 sampleOutcome
    (by decide) (by decide) (by decide) (by decide) (by decide) (by decide)).2
